import Mathlib

/-!
Verification of the kv-relay wire-layer translation engine: a shallow
embedding of the tuple key codec (src/key_codec.ts), the tag-wire codec
(src/protobuf.ts), the datapath message decoders (datapath.proto.ts) and
the relay operations (src/mod.ts), together with proofs of the frozen
claims about them.

Bytes are modelled as natural numbers (values below 256 in every
well-formed buffer); byte buffers are lists of naturals.  Fallible
TypeScript code (thrown TypeError / RangeError) is modelled with Option
or Except.
-/

namespace KvRelay

/-- Byte-wise lexicographic comparison of two byte buffers, i.e. the
order memcmp induces on encoded keys: the first differing byte decides,
and when one buffer is a strict prefix of the other the shorter one is
smaller. -/
def memcmp : List Nat → List Nat → Ordering
  | [], [] => .eq
  | [], _ :: _ => .lt
  | _ :: _, [] => .gt
  | a :: as, b :: bs => if a < b then .lt else if b < a then .gt else memcmp as bs

/-- Numeric value of a big-endian byte list. -/
def beVal : List Nat → Nat
  | [] => 0
  | b :: l => b * 256 ^ l.length + beVal l

/-- Minimal big-endian byte representation of a natural number: empty for
zero, and with a nonzero leading byte otherwise.  This is the normal form
produced by encodeBigIntBE in key_codec.ts: the 64-bit word splitting
followed by the trimStart of leading zero bytes always yields exactly the
minimal big-endian magnitude. -/
def natToBytesBE (n : Nat) : List Nat :=
  if h : n = 0 then [] else natToBytesBE (n / 256) ++ [n % 256]
termination_by n
decreasing_by exact Nat.div_lt_self (Nat.pos_of_ne_zero h) (by norm_num)

/-- Fixed-width big-endian byte representation (used for the 8-byte float
body written by writeBigInt64BESync). -/
def beBytesFixed : Nat → Nat → List Nat
  | 0, _ => []
  | w + 1, n => beBytesFixed w (n / 256) ++ [n % 256]

theorem memcmp_eq_iff : ∀ u v : List Nat, memcmp u v = .eq ↔ u = v := by
  intro u
  induction u with
  | nil => intro v; cases v <;> simp [memcmp]
  | cons a as ih =>
    intro v
    cases v with
    | nil => simp [memcmp]
    | cons b bs =>
      simp only [memcmp]
      by_cases h1 : a < b
      · simp [h1]; intro h; omega
      · by_cases h2 : b < a
        · simp [h1, h2]; intro h; omega
        · have hab : a = b := by omega
          simp [h1, h2, hab, ih]

theorem memcmp_append_same : ∀ (c u v : List Nat), memcmp (c ++ u) (c ++ v) = memcmp u v := by
  intro c
  induction c with
  | nil => intro u v; rfl
  | cons a as ih =>
    intro u v
    simp only [List.cons_append, memcmp]
    simp [ih]

theorem memcmp_nil_left : ∀ v : List Nat, memcmp [] v = if v = [] then .eq else .lt := by
  intro v; cases v <;> simp [memcmp]

theorem beVal_lt (l : List Nat) (h : ∀ b ∈ l, b < 256) : beVal l < 256 ^ l.length := by
  induction l with
  | nil => simp [beVal]
  | cons a as ih =>
    have ha : a < 256 := h a (by simp)
    have has : beVal as < 256 ^ as.length := ih (fun b hb => h b (by simp [hb]))
    simp only [beVal, List.length_cons, pow_succ]
    calc a * 256 ^ as.length + beVal as
        < a * 256 ^ as.length + 256 ^ as.length := by omega
      _ = (a + 1) * 256 ^ as.length := by ring
      _ ≤ 256 * 256 ^ as.length := by
          have : a + 1 ≤ 256 := by omega
          exact Nat.mul_le_mul_right _ this
      _ = 256 ^ as.length * 256 := by ring

theorem beVal_append_singleton (l : List Nat) (b : Nat) :
    beVal (l ++ [b]) = beVal l * 256 + b := by
  induction l with
  | nil => simp [beVal]
  | cons a as ih =>
    simp only [List.cons_append, beVal, List.append_eq, ih, List.length_append,
      List.length_cons, List.length_nil, Nat.zero_add, pow_succ]
    ring

theorem beVal_natToBytesBE (n : Nat) : beVal (natToBytesBE n) = n := by
  induction n using Nat.strong_induction_on with
  | _ n ih =>
    by_cases h : n = 0
    · simp [natToBytesBE, h, beVal]
    · rw [natToBytesBE]
      simp only [h, dite_false]
      rw [beVal_append_singleton, ih (n / 256) (Nat.div_lt_self (Nat.pos_of_ne_zero h) (by norm_num))]
      omega

theorem natToBytesBE_bytes_lt (n : Nat) : ∀ b ∈ natToBytesBE n, b < 256 := by
  induction n using Nat.strong_induction_on with
  | _ n ih =>
    by_cases h : n = 0
    · simp [natToBytesBE, h]
    · rw [natToBytesBE]
      simp only [h, dite_false]
      intro b hb
      rcases List.mem_append.mp hb with h1 | h2
      · exact ih (n / 256) (Nat.div_lt_self (Nat.pos_of_ne_zero h) (by norm_num)) b h1
      · simp at h2
        subst h2
        exact Nat.mod_lt _ (by norm_num)

/-- Characterization of the magnitude byte length: it fits in k bytes
exactly when the value is below 256 to the k. -/
theorem natToBytesBE_length_le (n : Nat) : ∀ k, (natToBytesBE n).length ≤ k ↔ n < 256 ^ k := by
  induction n using Nat.strong_induction_on with
  | _ n ih =>
    intro k
    by_cases h : n = 0
    · have hp : 0 < 256 ^ k := Nat.pos_pow_of_pos k (by norm_num)
      simp [natToBytesBE, h, hp]
    · rw [natToBytesBE]
      simp only [h, dite_false, List.length_append, List.length_cons, List.length_nil]
      cases k with
      | zero =>
        simp only [pow_zero]
        constructor
        · intro hk; omega
        · intro hk
          exact absurd hk (by omega)
      | succ k =>
        have := ih (n / 256) (Nat.div_lt_self (Nat.pos_of_ne_zero h) (by norm_num)) k
        constructor
        · intro hk
          have h1 : (natToBytesBE (n / 256)).length ≤ k := by omega
          have h2 : n / 256 < 256 ^ k := this.mp h1
          have : n < 256 ^ k * 256 := by
            have := Nat.div_add_mod n 256
            have hm : n % 256 < 256 := Nat.mod_lt _ (by norm_num)
            nlinarith [Nat.div_add_mod n 256]
          calc n < 256 ^ k * 256 := this
            _ = 256 ^ (k + 1) := by rw [pow_succ]
        · intro hk
          have h2 : n / 256 < 256 ^ k := by
            rw [Nat.div_lt_iff_lt_mul (by norm_num : 0 < 256)]
            calc n < 256 ^ (k + 1) := hk
              _ = 256 ^ k * 256 := by rw [pow_succ]
          have := this.mpr h2
          omega

theorem natToBytesBE_length_mono {m n : Nat} (h : m ≤ n) :
    (natToBytesBE m).length ≤ (natToBytesBE n).length := by
  rw [natToBytesBE_length_le]
  have := (natToBytesBE_length_le n ((natToBytesBE n).length)).mp (le_refl _)
  omega

theorem compare_nat_add_mul {a b ru rv W : Nat} (hru : ru < W) (hrv : rv < W) :
    compare (a * W + ru) (b * W + rv) =
      (if a < b then Ordering.lt else if b < a then Ordering.gt else compare ru rv) := by
  by_cases h1 : a < b
  · have : a * W + ru < b * W + rv := by nlinarith
    simp [h1, Nat.compare_eq_lt.mpr this]
  · by_cases h2 : b < a
    · have : b * W + rv < a * W + ru := by nlinarith
      simp [h1, h2, Nat.compare_eq_gt.mpr this]
    · have hab : a = b := by omega
      subst hab
      simp only [h1, h2, if_false, lt_self_iff_false]
      rcases Nat.lt_trichotomy ru rv with h | h | h
      · rw [Nat.compare_eq_lt.mpr h, Nat.compare_eq_lt.mpr (by omega)]
      · subst h; rw [Nat.compare_eq_eq.mpr rfl, Nat.compare_eq_eq.mpr rfl]
      · rw [Nat.compare_eq_gt.mpr h, Nat.compare_eq_gt.mpr (by omega)]

/-- On equal-length byte lists, memcmp computes the comparison of the
big-endian values. -/
theorem memcmp_eq_compare_beVal :
    ∀ u v : List Nat, u.length = v.length → (∀ b ∈ u, b < 256) → (∀ b ∈ v, b < 256) →
      memcmp u v = compare (beVal u) (beVal v) := by
  intro u
  induction u with
  | nil =>
    intro v hlen _ _
    have : v = [] := List.eq_nil_of_length_eq_zero hlen.symm
    subst this
    rfl
  | cons a as ih =>
    intro v hlen hu hv
    cases v with
    | nil => simp at hlen
    | cons b bs =>
      simp only [List.length_cons, Nat.succ_inj] at hlen
      have hwu : ∀ x ∈ as, x < 256 := fun x hx => hu x (by simp [hx])
      have hwv : ∀ x ∈ bs, x < 256 := fun x hx => hv x (by simp [hx])
      simp only [memcmp, beVal, hlen]
      have hru : beVal as < 256 ^ bs.length := by rw [← hlen]; exact beVal_lt as hwu
      have hrv : beVal bs < 256 ^ bs.length := beVal_lt bs hwv
      rw [compare_nat_add_mul hru hrv, ih bs hlen hwu hwv]

/-- Null-escaped byte run, as written by writeKvBytes in key_codec.ts:
each 0x00 content byte is followed by an 0xFF escape byte, and the run is
terminated by a single 0x00. -/
def escapeNul : List Nat → List Nat
  | [] => [0]
  | b :: rest => if b = 0 then 0 :: 255 :: escapeNul rest else b :: escapeNul rest

/-- Inverse scan performed by readKvBytes in key_codec.ts: bytes are
copied until a 0x00 byte not followed by 0xFF is found; a 0x00 followed
by 0xFF contributes a single 0x00 content byte.  Running out of input
before the terminator is an unexpected end of file (none). -/
def unescapeNul : List Nat → Option (List Nat × List Nat)
  | [] => none
  | b :: rest =>
    if b = 0 then
      match rest with
      | [] => some ([], [])
      | r :: rest2 =>
        if r = 255 then (unescapeNul rest2).map (fun p => (0 :: p.1, p.2))
        else some ([], r :: rest2)
    else (unescapeNul rest).map (fun p => (b :: p.1, p.2))
termination_by l => l.length

/-- Predicate on the byte run that follows a key part encoding: it is
either empty or starts with a byte below 0xFF (every key part tag is). -/
def headLt255 : List Nat → Prop
  | [] => True
  | b :: _ => b < 255

theorem unescapeNul_cons (b : Nat) (rest : List Nat) :
    unescapeNul (b :: rest) =
      if b = 0 then
        match rest with
        | [] => some ([], [])
        | r :: rest2 =>
          if r = 255 then (unescapeNul rest2).map (fun p => (0 :: p.1, p.2))
          else some ([], r :: rest2)
      else (unescapeNul rest).map (fun p => (b :: p.1, p.2)) := by
  rw [unescapeNul.eq_def]

theorem unescapeNul_escapeNul (x rest : List Nat) (h : headLt255 rest) :
    unescapeNul (escapeNul x ++ rest) = some (x, rest) := by
  induction x with
  | nil =>
    have he : escapeNul [] ++ rest = 0 :: rest := by simp [escapeNul]
    rw [he, unescapeNul_cons]
    cases rest with
    | nil => rfl
    | cons r rs =>
      have hr : r < 255 := h
      have hne : r ≠ 255 := by omega
      simp [hne]
  | cons b bs ih =>
    by_cases hb : b = 0
    · subst hb
      have he : escapeNul (0 :: bs) ++ rest = 0 :: 255 :: (escapeNul bs ++ rest) := by
        simp [escapeNul]
      rw [he, unescapeNul_cons]
      simp [ih]

    · have he : escapeNul (b :: bs) ++ rest = b :: (escapeNul bs ++ rest) := by
        simp [escapeNul, hb]
      rw [he, unescapeNul_cons, if_neg hb, ih]
      rfl

/-- Strict self-delimiting byte order between two part encodings: either
the encodings differ at some byte position, or the first is a strict
prefix of the second with 0xFF as the next byte.  In both cases the first
encoding stays strictly below the second under memcmp no matter what
valid continuation follows each of them. -/
def SelfDelimLt (u v : List Nat) : Prop :=
  (∃ c d1 d2 u2 v2, u = c ++ d1 :: u2 ∧ v = c ++ d2 :: v2 ∧ d1 < d2) ∨
  (∃ v2, v = u ++ 255 :: v2)

theorem SelfDelimLt.prepend {u v : List Nat} (w : List Nat) (h : SelfDelimLt u v) :
    SelfDelimLt (w ++ u) (w ++ v) := by
  rcases h with ⟨c, d1, d2, u2, v2, hu, hv, hd⟩ | ⟨v2, hv⟩
  · exact Or.inl ⟨w ++ c, d1, d2, u2, v2, by simp [hu], by simp [hv], hd⟩
  · exact Or.inr ⟨v2, by simp [hv]⟩

theorem SelfDelimLt.memcmp_lt {u v : List Nat} (h : SelfDelimLt u v)
    {s t : List Nat} (hs : headLt255 s) (ht : headLt255 t) :
    memcmp (u ++ s) (v ++ t) = .lt := by
  rcases h with ⟨c, d1, d2, u2, v2, hu, hv, hd⟩ | ⟨v2, hv⟩
  · subst hu hv
    rw [List.append_assoc, List.append_assoc, memcmp_append_same]
    simp [memcmp, hd]
  · subst hv
    rw [List.append_assoc, memcmp_append_same]
    cases s with
    | nil => simp [memcmp]
    | cons a s2 =>
      have : a < 255 := hs
      simp [memcmp, this]

theorem memcmp_lt_decomp :
    ∀ u v : List Nat, u.length = v.length → memcmp u v = .lt →
      ∃ c d1 d2 u2 v2, u = c ++ d1 :: u2 ∧ v = c ++ d2 :: v2 ∧ d1 < d2 := by
  intro u
  induction u with
  | nil =>
    intro v hlen hcmp
    have : v = [] := List.eq_nil_of_length_eq_zero hlen.symm
    subst this
    simp [memcmp] at hcmp
  | cons a as ih =>
    intro v hlen hcmp
    cases v with
    | nil => simp at hlen
    | cons b bs =>
      simp only [List.length_cons, Nat.succ_inj] at hlen
      simp only [memcmp] at hcmp
      by_cases h1 : a < b
      · exact ⟨[], a, b, as, bs, rfl, rfl, h1⟩
      · by_cases h2 : b < a
        · simp [h1, h2] at hcmp
        · have hab : a = b := by omega
          subst hab
          simp only [h1, h2, if_false] at hcmp
          obtain ⟨c, d1, d2, u2, v2, hu, hv, hd⟩ := ih bs hlen hcmp
          exact ⟨a :: c, d1, d2, u2, v2, by simp [hu], by simp [hv], hd⟩

theorem memcmp_lt_selfDelim {u v : List Nat} (hlen : u.length = v.length)
    (hcmp : memcmp u v = .lt) : SelfDelimLt u v :=
  Or.inl (memcmp_lt_decomp u v hlen hcmp)

/-- The null-escape transform preserves strict byte order in the strong
self-delimiting sense. -/
theorem escapeNul_selfDelimLt :
    ∀ x y : List Nat, memcmp x y = .lt → SelfDelimLt (escapeNul x) (escapeNul y) := by
  intro x
  induction x with
  | nil =>
    intro y hcmp
    cases y with
    | nil => simp [memcmp] at hcmp
    | cons b ys =>
      by_cases hb : b = 0
      · subst hb
        exact Or.inr ⟨escapeNul ys, by simp [escapeNul]⟩
      · refine Or.inl ⟨[], 0, b, [], escapeNul ys, by simp [escapeNul], by simp [escapeNul, hb], ?_⟩
        omega
  | cons a xs ih =>
    intro y hcmp
    cases y with
    | nil => simp [memcmp] at hcmp
    | cons b ys =>
      simp only [memcmp] at hcmp
      by_cases h1 : a < b
      · by_cases ha : a = 0
        · subst ha
          refine Or.inl ⟨[], 0, b, 255 :: escapeNul xs, escapeNul ys,
            by simp [escapeNul], by simp [escapeNul, show b ≠ 0 by omega], by omega⟩
        · refine Or.inl ⟨[], a, b, escapeNul xs, escapeNul ys,
            by simp [escapeNul, ha], by simp [escapeNul, show b ≠ 0 by omega], h1⟩
      · by_cases h2 : b < a
        · simp [h1, h2] at hcmp
        · have hab : a = b := by omega
          subst hab
          simp only [h1, h2, if_false] at hcmp
          have hrec := ih ys hcmp
          by_cases ha : a = 0
          · subst ha
            have := hrec.prepend [0, 255]
            simpa [escapeNul] using this
          · have := hrec.prepend [a]
            simpa [escapeNul, ha] using this

theorem xor_two_pow_of_lt {w a : Nat} (h : a < 2 ^ w) : a ^^^ 2 ^ w = a + 2 ^ w := by
  apply Nat.eq_of_testBit_eq
  intro i
  rw [Nat.testBit_xor, Nat.testBit_two_pow]
  rcases Nat.lt_trichotomy i w with hi | hi | hi
  · rw [Nat.add_comm, Nat.testBit_two_pow_add_gt hi]
    simp [show w ≠ i by omega]
  · subst hi
    rw [Nat.add_comm, Nat.testBit_two_pow_add_eq]
    have hb : a.testBit i = false := Nat.testBit_lt_two_pow h
    simp [hb]
  · have h1 : a.testBit i = false :=
      Nat.testBit_lt_two_pow (lt_trans h (Nat.pow_lt_pow_right (by norm_num) hi))
    have h2 : (a + 2 ^ w).testBit i = false := by
      apply Nat.testBit_lt_two_pow
      have : a + 2 ^ w < 2 ^ (w + 1) := by
        have := pow_succ 2 w
        omega
      calc a + 2 ^ w < 2 ^ (w + 1) := this
        _ ≤ 2 ^ i := Nat.pow_le_pow_right (by norm_num) (by omega)
    simp [h1, h2, show w ≠ i by omega]

theorem xor_two_pow_sub_one_of_lt {w a : Nat} (h : a < 2 ^ w) :
    a ^^^ (2 ^ w - 1) = 2 ^ w - 1 - a := by
  apply Nat.eq_of_testBit_eq
  intro i
  rw [Nat.testBit_xor, Nat.testBit_two_pow_sub_one]
  have he : 2 ^ w - 1 - a = 2 ^ w - (a + 1) := by omega
  rw [he, Nat.testBit_two_pow_sub_succ h]
  by_cases hi : i < w
  · simp [hi]
  · have h1 : a.testBit i = false :=
      Nat.testBit_lt_two_pow (lt_of_lt_of_le h (Nat.pow_le_pow_right (by norm_num) (by omega)))
    simp [hi, h1]

/-- XOR with 0xFF on a byte (the bytes[i] ^= 0xff inversion applied to
negative integer magnitudes) is the same as subtracting from 255. -/
theorem xor_255_eq (b : Nat) (h : b < 256) : b ^^^ 255 = 255 - b := by
  have := @xor_two_pow_sub_one_of_lt 8 b (by omega)
  norm_num at this
  omega

/-- writeKvInt from key_codec.ts: the tag byte is 0x14 plus the magnitude
byte length for positive values of at most 8 bytes and 0x14 minus it for
negative ones; longer magnitudes use tag 0x1d (positive) with an explicit
length byte, or tag 0x0b (negative) with the length byte inverted (the
source writes the 16-bit value 0x0bff AND NOT len, whose two bytes are
0x0b and 255 - len).  The magnitude follows in big-endian order, with
every byte XORed with 0xFF when the value is negative.  A magnitude
longer than 255 bytes throws a RangeError (none). -/
def writeKvInt (value : Int) : Option (List Nat) :=
  let bytes := natToBytesBE value.natAbs
  let len := bytes.length
  if len > 255 then none
  else if value < 0 then
    if len ≤ 8 then some ((0x14 - len) :: bytes.map (fun b => b ^^^ 255))
    else some (0x0b :: (255 - len) :: bytes.map (fun b => b ^^^ 255))
  else
    if len ≤ 8 then some ((0x14 + len) :: bytes)
    else some (0x1d :: len :: bytes)

/-- readKvInt from key_codec.ts: reads the body of an integer key part
whose tag byte has already been consumed; tags outside 0x0b..0x1d throw a
TypeError.  Tags within 8 of 0x14 carry the length; otherwise a length
byte follows (inverted, i.e. 255 - len as the source computes NOT byte
AND 0xFF, for the negative tag 0x0b).  The magnitude bytes are XORed back
for negative values and the big-endian value is negated. -/
def readKvInt (tag : Nat) (bytes : List Nat) : Option (Int × List Nat) :=
  if tag < 0x0b ∨ 0x1d < tag then none
  else if tag < 0x14 then
    (if 0x14 - tag > 8 then
        match bytes with
        | [] => none
        | lb :: rest => some (255 - lb, rest)
      else some (0x14 - tag, bytes)).bind fun p =>
      if p.1 = 0 then some (0, p.2)
      else if p.2.length < p.1 then none
      else some (-(beVal ((p.2.take p.1).map (fun b => b ^^^ 255)) : Int), p.2.drop p.1)
  else
    (if tag - 0x14 > 8 then
        match bytes with
        | [] => none
        | lb :: rest => some (lb, rest)
      else some (tag - 0x14, bytes)).bind fun p =>
      if p.1 = 0 then some (0, p.2)
      else if p.2.length < p.1 then none
      else some ((beVal (p.2.take p.1) : Int), p.2.drop p.1)

/-- Bit-pattern test for an IEEE-754 double NaN: exponent bits all ones
and nonzero mantissa (Number.isNaN on the decoded value). -/
def isNaNBits (bits : Nat) : Bool :=
  decide ((bits / 2 ^ 52) % 2 ^ 11 = 2 ^ 11 - 1) && decide (bits % 2 ^ 52 ≠ 0)

/-- NaN canonicalization performed by writeKvFloat before the XOR step: a
NaN pattern is replaced by (bits AND signBit) OR 0x7ff8000000000000, the
canonical quiet NaN with the original sign bit. -/
def canonicalizeNaNBits (bits : Nat) : Nat :=
  if isNaNBits bits then (bits &&& 2 ^ 63) ||| 0x7ff8000000000000 else bits

/-- Order transform of writeKvFloat, bits XOR ((bits >> 63) OR signBit)
in signed 64-bit arithmetic: a sign-set pattern is inverted entirely, a
sign-clear pattern gets only its sign bit flipped. -/
def floatMapBits (bits : Nat) : Nat :=
  if 2 ^ 63 ≤ bits then bits ^^^ (2 ^ 64 - 1) else bits ^^^ 2 ^ 63

/-- Inverse transform of readKvFloat, bits XOR ((NOT (bits >> 63)) OR
signBit) in signed 64-bit arithmetic. -/
def floatUnmapBits (stored : Nat) : Nat :=
  if 2 ^ 63 ≤ stored then stored ^^^ 2 ^ 63 else stored ^^^ (2 ^ 64 - 1)

/-- Body of a float key part: writeKvFloat canonicalizes NaN, applies the
order transform and writes the result as 8 big-endian bytes. -/
def writeKvFloat (bits : Nat) : List Nat :=
  beBytesFixed 8 (floatMapBits (canonicalizeNaNBits bits))

/-- One typed part of a tuple key (Deno.KvKeyPart).  A string part is
represented by its UTF-8 byte encoding (the TextEncoder output), and a
float part by its IEEE-754 bit pattern. -/
inductive KvKeyPart where
  | bytes (value : List Nat)
  | str (utf8 : List Nat)
  | int (value : Int)
  | float (bits : Nat)
  | bool (value : Bool)
deriving DecidableEq

/-- Encoding of a single key part as performed by the encodeKey switch in
key_codec.ts: a type tag byte (0x01 bytes, 0x02 string, 0x21 float, 0x26
false, 0x27 true, and the integer tags inside writeKvInt) followed by the
self-delimited body. -/
def encodeKeyPart : KvKeyPart → Option (List Nat)
  | .bytes v => some (0x01 :: escapeNul v)
  | .str s => some (0x02 :: escapeNul s)
  | .int i => writeKvInt i
  | .float bits => some (0x21 :: writeKvFloat bits)
  | .bool b => some [if b then 0x27 else 0x26]

/-- encodeKey from key_codec.ts: the concatenation of the part
encodings. -/
def encodeKey : List KvKeyPart → Option (List Nat)
  | [] => some []
  | p :: ps => do
    let e ← encodeKeyPart p
    let rest ← encodeKey ps
    pure (e ++ rest)

/-- Rank of a part type; the governing tag byte ranges (0x01, 0x02,
0x0b..0x1d, 0x21, 0x26..0x27) are ordered the same way. -/
def partRank : KvKeyPart → Nat
  | .bytes _ => 0
  | .str _ => 1
  | .int _ => 2
  | .float _ => 3
  | .bool _ => 4

/-- IEEE-754 total order on 64-bit float patterns after NaN
canonicalization: sign-set patterns sort below sign-clear ones and by
reversed bit order among themselves; sign-clear patterns sort by bit
order.  On finite values this is numeric order with -0 below +0;
canonicalized NaNs sit just above +infinity (sign clear) or just below
-infinity (sign set). -/
def floatCmp (a b : Nat) : Ordering :=
  let ca := canonicalizeNaNBits a
  let cb := canonicalizeNaNBits b
  if 2 ^ 63 ≤ ca then
    if 2 ^ 63 ≤ cb then compare cb ca else .lt
  else
    if 2 ^ 63 ≤ cb then .gt else compare ca cb

/-- Type-aware ordering on key parts: parts of different types compare by
type rank; equal types compare byte strings lexicographically, integers
numerically, floats in the IEEE total order, and false before true. -/
def partCmp : KvKeyPart → KvKeyPart → Ordering
  | .bytes u, .bytes v => memcmp u v
  | .str u, .str v => memcmp u v
  | .int i, .int j => compare i j
  | .float a, .float b => floatCmp a b
  | .bool u, .bool v => compare u v
  | p, q => compare (partRank p) (partRank q)

/-- Type-aware ordering on whole keys: lexicographic over parts, with a
key that is a strict prefix of another sorting first. -/
def keyCmp : List KvKeyPart → List KvKeyPart → Ordering
  | [], [] => .eq
  | [], _ :: _ => .lt
  | _ :: _, [] => .gt
  | p :: ps, q :: qs =>
    match partCmp p q with
    | .lt => .lt
    | .gt => .gt
    | .eq => keyCmp ps qs

theorem beBytesFixed_length (w : Nat) : ∀ n, (beBytesFixed w n).length = w := by
  induction w with
  | zero => intro n; rfl
  | succ w ih =>
    intro n
    simp [beBytesFixed, ih]

theorem beBytesFixed_bytes_lt (w : Nat) : ∀ n, ∀ b ∈ beBytesFixed w n, b < 256 := by
  induction w with
  | zero => intro n b hb; simp [beBytesFixed] at hb
  | succ w ih =>
    intro n b hb
    simp only [beBytesFixed, List.mem_append, List.mem_singleton] at hb
    rcases hb with h | h
    · exact ih _ b h
    · subst h; exact Nat.mod_lt _ (by norm_num)

theorem beVal_beBytesFixed (w : Nat) : ∀ n, beVal (beBytesFixed w n) = n % 256 ^ w := by
  induction w with
  | zero => intro n; simp [beBytesFixed, beVal, Nat.mod_one]
  | succ w ih =>
    intro n
    simp only [beBytesFixed, beVal_append_singleton, ih]
    rw [pow_succ, Nat.mul_comm (256 ^ w) 256, Nat.mod_mul]
    ring

theorem memcmp_gt_iff_swap : ∀ u v : List Nat, memcmp u v = .gt ↔ memcmp v u = .lt := by
  intro u
  induction u with
  | nil => intro v; cases v <;> simp [memcmp]
  | cons a as ih =>
    intro v
    cases v with
    | nil => simp [memcmp]
    | cons b bs =>
      simp only [memcmp]
      by_cases h1 : a < b
      · simp [h1, show ¬b < a by omega]
      · by_cases h2 : b < a
        · simp [h1, h2]
        · simp [h1, h2, ih]

/-- Inverting every byte with XOR 0xFF reverses the lexicographic order
of equal-length byte lists. -/
theorem memcmp_map_inv :
    ∀ u v : List Nat, u.length = v.length → (∀ b ∈ u, b < 256) → (∀ b ∈ v, b < 256) →
      memcmp (u.map (fun b => b ^^^ 255)) (v.map (fun b => b ^^^ 255)) = memcmp v u := by
  intro u
  induction u with
  | nil =>
    intro v hlen _ _
    have : v = [] := List.eq_nil_of_length_eq_zero hlen.symm
    subst this
    rfl
  | cons a as ih =>
    intro v hlen hu hv
    cases v with
    | nil => simp at hlen
    | cons b bs =>
      simp only [List.length_cons, Nat.succ_inj] at hlen
      have ha : a < 256 := hu a (by simp)
      have hb : b < 256 := hv b (by simp)
      simp only [List.map_cons, memcmp, xor_255_eq a ha, xor_255_eq b hb]
      by_cases h1 : a < b
      · simp [show 255 - a > 255 - b by omega, show ¬255 - a < 255 - b by omega,
          show ¬b < a by omega, h1]
      · by_cases h2 : b < a
        · simp [show 255 - a < 255 - b by omega, h2]
        · have hab : a = b := by omega
          subst hab
          simp only [lt_self_iff_false, if_false]
          exact ih bs hlen (fun x hx => hu x (by simp [hx])) (fun x hx => hv x (by simp [hx]))

theorem canonicalizeNaNBits_lt {bits : Nat} (h : bits < 2 ^ 64) :
    canonicalizeNaNBits bits < 2 ^ 64 := by
  rw [canonicalizeNaNBits]
  split
  · have h1 : bits &&& 2 ^ 63 < 2 ^ 64 :=
      Nat.and_lt_two_pow bits (by norm_num)
    have h2 : (0x7ff8000000000000 : Nat) < 2 ^ 64 := by norm_num
    exact Nat.or_lt_two_pow h1 h2
  · exact h

/-- The writeKvFloat bit transform realizes the sign-magnitude total
order as plain unsigned comparison of the transformed patterns. -/
theorem compare_floatMapBits {x y : Nat} (hx : x < 2 ^ 64) (hy : y < 2 ^ 64) :
    compare (floatMapBits x) (floatMapBits y) =
      (if 2 ^ 63 ≤ x then
        (if 2 ^ 63 ≤ y then compare y x else Ordering.lt)
      else
        (if 2 ^ 63 ≤ y then Ordering.gt else compare x y)) := by
  have hxy64 : (2 : Nat) ^ 64 = 2 ^ 63 + 2 ^ 63 := by norm_num
  rw [floatMapBits, floatMapBits]
  by_cases h1 : 2 ^ 63 ≤ x
  · rw [if_pos h1, xor_two_pow_sub_one_of_lt hx]
    by_cases h2 : 2 ^ 63 ≤ y
    · rw [if_pos h2, if_pos h1, if_pos h2, xor_two_pow_sub_one_of_lt hy]
      rcases Nat.lt_trichotomy x y with h | h | h
      · rw [Nat.compare_eq_gt.mpr (by omega), Nat.compare_eq_gt.mpr (by omega)]
      · subst h; rw [Nat.compare_eq_eq.mpr rfl, Nat.compare_eq_eq.mpr rfl]
      · rw [Nat.compare_eq_lt.mpr (by omega), Nat.compare_eq_lt.mpr (by omega)]
    · have hy63 : y < 2 ^ 63 := by omega
      rw [if_neg h2, if_pos h1, if_neg h2, xor_two_pow_of_lt hy63]
      exact Nat.compare_eq_lt.mpr (by omega)
  · have hx63 : x < 2 ^ 63 := by omega
    rw [if_neg h1, xor_two_pow_of_lt hx63]
    by_cases h2 : 2 ^ 63 ≤ y
    · rw [if_pos h2, if_neg h1, if_pos h2, xor_two_pow_sub_one_of_lt hy]
      exact Nat.compare_eq_gt.mpr (by omega)
    · have hy63 : y < 2 ^ 63 := by omega
      rw [if_neg h2, if_neg h1, if_neg h2, xor_two_pow_of_lt hy63]
      rcases Nat.lt_trichotomy x y with h | h | h
      · rw [Nat.compare_eq_lt.mpr h, Nat.compare_eq_lt.mpr (by omega)]
      · subst h; rw [Nat.compare_eq_eq.mpr rfl, Nat.compare_eq_eq.mpr rfl]
      · rw [Nat.compare_eq_gt.mpr h, Nat.compare_eq_gt.mpr (by omega)]

theorem floatMapBits_lt {x : Nat} (hx : x < 2 ^ 64) : floatMapBits x < 2 ^ 64 := by
  rw [floatMapBits]
  split
  · rw [xor_two_pow_sub_one_of_lt hx]; omega
  · rw [xor_two_pow_of_lt (by omega)]; omega

/-- The float body encoding is strictly order preserving: a strictly
smaller float (in the IEEE total order on canonicalized patterns) has a
strictly smaller 8-byte body at some byte position. -/
theorem writeKvFloat_selfDelimLt {a b : Nat} (ha : a < 2 ^ 64) (hb : b < 2 ^ 64)
    (h : floatCmp a b = .lt) : SelfDelimLt (writeKvFloat a) (writeKvFloat b) := by
  have hca := canonicalizeNaNBits_lt ha
  have hcb := canonicalizeNaNBits_lt hb
  have hlt : floatMapBits (canonicalizeNaNBits a) < floatMapBits (canonicalizeNaNBits b) := by
    rw [← Nat.compare_eq_lt, compare_floatMapBits hca hcb]
    rw [floatCmp] at h
    by_cases h1 : 2 ^ 63 ≤ canonicalizeNaNBits a
    · by_cases h2 : 2 ^ 63 ≤ canonicalizeNaNBits b
      · simp only [if_pos h1, if_pos h2] at h ⊢; exact h
      · simp only [if_pos h1, if_neg h2]
    · by_cases h2 : 2 ^ 63 ≤ canonicalizeNaNBits b
      · simp only [if_neg h1, if_pos h2] at h ⊢; exact h
      · simp only [if_neg h1, if_neg h2] at h ⊢; exact h
  apply memcmp_lt_selfDelim (by rw [writeKvFloat, writeKvFloat, beBytesFixed_length, beBytesFixed_length])
  rw [writeKvFloat, writeKvFloat,
    memcmp_eq_compare_beVal _ _ (by rw [beBytesFixed_length, beBytesFixed_length])
      (beBytesFixed_bytes_lt 8 _) (beBytesFixed_bytes_lt 8 _),
    beVal_beBytesFixed, beVal_beBytesFixed]
  have e8 : (256 : Nat) ^ 8 = 2 ^ 64 := by norm_num
  rw [e8, Nat.mod_eq_of_lt (floatMapBits_lt hca), Nat.mod_eq_of_lt (floatMapBits_lt hcb)]
  exact Nat.compare_eq_lt.mpr hlt

theorem natToBytesBE_length_pos {n : Nat} (h : n ≠ 0) : 0 < (natToBytesBE n).length := by
  by_contra hc
  have : (natToBytesBE n).length ≤ 0 := by omega
  have := (natToBytesBE_length_le n 0).mp this
  simp at this
  omega

theorem memcmp_natToBytesBE_lt {m n : Nat}
    (hlen : (natToBytesBE m).length = (natToBytesBE n).length) (hmn : m < n) :
    memcmp (natToBytesBE m) (natToBytesBE n) = .lt := by
  rw [memcmp_eq_compare_beVal _ _ hlen (natToBytesBE_bytes_lt m) (natToBytesBE_bytes_lt n),
    beVal_natToBytesBE, beVal_natToBytesBE]
  exact Nat.compare_eq_lt.mpr hmn

/-- Shape of a successful writeKvInt: the four tag layouts of the integer
key part encoding. -/
theorem writeKvInt_eq_some {i : Int} {u : List Nat} (hu : writeKvInt i = some u) :
    (natToBytesBE i.natAbs).length ≤ 255 ∧
    ((i < 0 ∧ (natToBytesBE i.natAbs).length ≤ 8 ∧
        u = (20 - (natToBytesBE i.natAbs).length) ::
          (natToBytesBE i.natAbs).map (fun x => x ^^^ 255)) ∨
     (i < 0 ∧ 8 < (natToBytesBE i.natAbs).length ∧
        u = 11 :: (255 - (natToBytesBE i.natAbs).length) ::
          (natToBytesBE i.natAbs).map (fun x => x ^^^ 255)) ∨
     (0 ≤ i ∧ (natToBytesBE i.natAbs).length ≤ 8 ∧
        u = (20 + (natToBytesBE i.natAbs).length) :: natToBytesBE i.natAbs) ∨
     (0 ≤ i ∧ 8 < (natToBytesBE i.natAbs).length ∧
        u = 29 :: (natToBytesBE i.natAbs).length :: natToBytesBE i.natAbs)) := by
  simp only [writeKvInt] at hu
  split at hu
  · exact absurd hu (by simp)
  · rename_i hlen
    constructor
    · omega
    · split at hu
      · rename_i hneg
        split at hu
        · rename_i h8
          exact Or.inl ⟨hneg, h8, by simpa using hu.symm⟩
        · rename_i h8
          exact Or.inr (Or.inl ⟨hneg, by omega, by simpa using hu.symm⟩)
      · rename_i hneg
        split at hu
        · rename_i h8
          exact Or.inr (Or.inr (Or.inl ⟨by omega, h8, by simpa using hu.symm⟩))
        · rename_i h8
          exact Or.inr (Or.inr (Or.inr ⟨by omega, by omega, by simpa using hu.symm⟩))

/-- The integer key part encoding is strictly order preserving in the
self-delimiting sense: a numerically smaller integer encodes to a byte
run that differs at some position with a smaller byte. -/
theorem writeKvInt_selfDelimLt {i j : Int} {u v : List Nat}
    (hu : writeKvInt i = some u) (hv : writeKvInt j = some v) (hij : i < j) :
    SelfDelimLt u v := by
  obtain ⟨hlu, hcu⟩ := writeKvInt_eq_some hu
  obtain ⟨hlv, hcv⟩ := writeKvInt_eq_some hv
  rcases hcu with ⟨hsi, h8i, hui⟩ | ⟨hsi, h8i, hui⟩ | ⟨hsi, h8i, hui⟩ | ⟨hsi, h8i, hui⟩ <;>
    rcases hcv with ⟨hsj, h8j, hvj⟩ | ⟨hsj, h8j, hvj⟩ | ⟨hsj, h8j, hvj⟩ | ⟨hsj, h8j, hvj⟩
  all_goals subst hui hvj
  -- case i < 0, j < 0, both short
  · have hja : j.natAbs < i.natAbs := by omega
    have hmono : (natToBytesBE j.natAbs).length ≤ (natToBytesBE i.natAbs).length :=
      natToBytesBE_length_mono (by omega)
    by_cases heq : (natToBytesBE i.natAbs).length = (natToBytesBE j.natAbs).length
    · have hm : memcmp ((natToBytesBE i.natAbs).map (fun x => x ^^^ 255))
          ((natToBytesBE j.natAbs).map (fun x => x ^^^ 255)) = .lt := by
        rw [memcmp_map_inv _ _ heq (natToBytesBE_bytes_lt _) (natToBytesBE_bytes_lt _)]
        exact memcmp_natToBytesBE_lt heq.symm hja
      have hd := memcmp_lt_selfDelim (by simp [heq]) hm
      have := hd.prepend [20 - (natToBytesBE i.natAbs).length]
      simpa [heq] using this
    · have hlt : (natToBytesBE j.natAbs).length < (natToBytesBE i.natAbs).length := by omega
      exact Or.inl ⟨[], _, _, _, _, rfl, rfl, by omega⟩
  -- i < 0 short, j < 0 long: impossible since |i| > |j| forces len i ≥ len j > 8
  · have hja : j.natAbs < i.natAbs := by omega
    have hmono : (natToBytesBE j.natAbs).length ≤ (natToBytesBE i.natAbs).length :=
      natToBytesBE_length_mono (by omega)
    omega
  -- i < 0 short, j ≥ 0 short
  · have h1 : 0 < (natToBytesBE i.natAbs).length := natToBytesBE_length_pos (by omega)
    exact Or.inl ⟨[], _, _, _, _, rfl, rfl, by omega⟩
  -- i < 0 short, j ≥ 0 long
  · have h1 : 0 < (natToBytesBE i.natAbs).length := natToBytesBE_length_pos (by omega)
    exact Or.inl ⟨[], _, _, _, _, rfl, rfl, by omega⟩
  -- i < 0 long, j < 0 short
  · exact Or.inl ⟨[], _, _, _, _, rfl, rfl, by omega⟩
  -- i < 0 long, j < 0 long
  · have hja : j.natAbs < i.natAbs := by omega
    have hmono : (natToBytesBE j.natAbs).length ≤ (natToBytesBE i.natAbs).length :=
      natToBytesBE_length_mono (by omega)
    by_cases heq : (natToBytesBE i.natAbs).length = (natToBytesBE j.natAbs).length
    · have hm : memcmp ((natToBytesBE i.natAbs).map (fun x => x ^^^ 255))
          ((natToBytesBE j.natAbs).map (fun x => x ^^^ 255)) = .lt := by
        rw [memcmp_map_inv _ _ heq (natToBytesBE_bytes_lt _) (natToBytesBE_bytes_lt _)]
        exact memcmp_natToBytesBE_lt heq.symm hja
      have hd := memcmp_lt_selfDelim (by simp [heq]) hm
      have := hd.prepend [11, 255 - (natToBytesBE i.natAbs).length]
      simpa [heq] using this
    · refine Or.inl ⟨[11], _, _, _, _, rfl, rfl, by omega⟩
  -- i < 0 long, j ≥ 0 short
  · have h1 : 0 < (natToBytesBE i.natAbs).length := natToBytesBE_length_pos (by omega)
    exact Or.inl ⟨[], _, _, _, _, rfl, rfl, by omega⟩
  -- i < 0 long, j ≥ 0 long
  · exact Or.inl ⟨[], _, _, _, _, rfl, rfl, by omega⟩
  -- i ≥ 0 short, j < 0: impossible
  · omega
  · omega
  -- i ≥ 0 short, j ≥ 0 short
  · have hja : i.natAbs < j.natAbs := by omega
    have hmono : (natToBytesBE i.natAbs).length ≤ (natToBytesBE j.natAbs).length :=
      natToBytesBE_length_mono (by omega)
    by_cases heq : (natToBytesBE i.natAbs).length = (natToBytesBE j.natAbs).length
    · have hm : memcmp (natToBytesBE i.natAbs) (natToBytesBE j.natAbs) = .lt :=
        memcmp_natToBytesBE_lt heq hja
      have hd := memcmp_lt_selfDelim (by simp [heq]) hm
      have := hd.prepend [20 + (natToBytesBE i.natAbs).length]
      simpa [heq] using this
    · exact Or.inl ⟨[], _, _, _, _, rfl, rfl, by omega⟩
  -- i ≥ 0 short, j ≥ 0 long
  · exact Or.inl ⟨[], _, _, _, _, rfl, rfl, by omega⟩
  -- i ≥ 0 long, j < 0: impossible
  · omega
  · omega
  -- i ≥ 0 long, j ≥ 0 short: impossible by monotonicity
  · have hja : i.natAbs < j.natAbs := by omega
    have hmono : (natToBytesBE i.natAbs).length ≤ (natToBytesBE j.natAbs).length :=
      natToBytesBE_length_mono (by omega)
    omega
  -- i ≥ 0 long, j ≥ 0 long
  · have hja : i.natAbs < j.natAbs := by omega
    have hmono : (natToBytesBE i.natAbs).length ≤ (natToBytesBE j.natAbs).length :=
      natToBytesBE_length_mono (by omega)
    by_cases heq : (natToBytesBE i.natAbs).length = (natToBytesBE j.natAbs).length
    · have hm : memcmp (natToBytesBE i.natAbs) (natToBytesBE j.natAbs) = .lt :=
        memcmp_natToBytesBE_lt heq hja
      have hd := memcmp_lt_selfDelim (by simp [heq]) hm
      have := hd.prepend [29, (natToBytesBE i.natAbs).length]
      simpa [heq] using this
    · refine Or.inl ⟨[29], _, _, _, _, rfl, rfl, by omega⟩

/-- Well-formedness needed of a part for the order theorems: a float bit
pattern fits in 64 bits (it is read out of a 64-bit buffer in the
source). -/
def WfPart : KvKeyPart → Prop
  | .float bits => bits < 2 ^ 64
  | _ => True

/-- Smallest tag byte an encoding of this part type can start with. -/
def tagLo : KvKeyPart → Nat
  | .bytes _ => 0x01
  | .str _ => 0x02
  | .int _ => 0x0b
  | .float _ => 0x21
  | .bool _ => 0x26

/-- Largest tag byte an encoding of this part type can start with. -/
def tagHi : KvKeyPart → Nat
  | .bytes _ => 0x01
  | .str _ => 0x02
  | .int _ => 0x1d
  | .float _ => 0x21
  | .bool _ => 0x27

theorem encodeKeyPart_head {p : KvKeyPart} {u : List Nat} (h : encodeKeyPart p = some u) :
    ∃ t rest, u = t :: rest ∧ tagLo p ≤ t ∧ t ≤ tagHi p := by
  cases p with
  | bytes v =>
    simp only [encodeKeyPart, Option.some_inj] at h
    exact ⟨1, escapeNul v, h.symm, by simp [tagLo], by simp [tagHi]⟩
  | str s =>
    simp only [encodeKeyPart, Option.some_inj] at h
    exact ⟨2, escapeNul s, h.symm, by simp [tagLo], by simp [tagHi]⟩
  | int i =>
    obtain ⟨hl, hc⟩ := writeKvInt_eq_some h
    rcases hc with ⟨hs, h8, he⟩ | ⟨hs, h8, he⟩ | ⟨hs, h8, he⟩ | ⟨hs, h8, he⟩
    · have hpos : 0 < (natToBytesBE i.natAbs).length := natToBytesBE_length_pos (by omega)
      exact ⟨_, _, he, by simp [tagLo]; omega, by simp [tagHi]; omega⟩
    · exact ⟨_, _, he, by simp [tagLo], by simp [tagHi]⟩
    · exact ⟨_, _, he, by simp [tagLo]; omega, by simp [tagHi]; omega⟩
    · exact ⟨_, _, he, by simp [tagLo], by simp [tagHi]⟩
  | float bits =>
    simp only [encodeKeyPart, Option.some_inj] at h
    exact ⟨0x21, writeKvFloat bits, h.symm, by simp [tagLo], by simp [tagHi]⟩
  | bool b =>
    simp only [encodeKeyPart, Option.some_inj] at h
    cases b
    · exact ⟨0x26, [], h.symm, by simp [tagLo], by simp [tagHi]⟩
    · exact ⟨0x27, [], h.symm, by simp [tagLo], by simp [tagHi]⟩

theorem tagHi_lt_tagLo {p q : KvKeyPart} (h : partRank p < partRank q) :
    tagHi p < tagLo q := by
  cases p <;> cases q <;> simp_all [partRank, tagLo, tagHi]

theorem rank_lt_selfDelimLt {p q : KvKeyPart} {u v : List Nat}
    (hu : encodeKeyPart p = some u) (hv : encodeKeyPart q = some v)
    (h : partRank p < partRank q) : SelfDelimLt u v := by
  obtain ⟨t, ru, hru, htlo, hthi⟩ := encodeKeyPart_head hu
  obtain ⟨s, rv, hrv, hslo, hshi⟩ := encodeKeyPart_head hv
  subst hru hrv
  refine Or.inl ⟨[], t, s, ru, rv, rfl, rfl, ?_⟩
  have := tagHi_lt_tagLo h
  omega

theorem floatCmp_eq_canon {a b : Nat} (h : floatCmp a b = .eq) :
    canonicalizeNaNBits a = canonicalizeNaNBits b := by
  rw [floatCmp] at h
  by_cases h1 : 2 ^ 63 ≤ canonicalizeNaNBits a <;>
    by_cases h2 : 2 ^ 63 ≤ canonicalizeNaNBits b <;>
      simp only [if_pos, if_neg, h1, h2, if_true, if_false] at h
  · exact (compare_eq_iff_eq.mp h).symm
  · simp at h
  · simp at h
  · exact compare_eq_iff_eq.mp h

/-- Parts that compare equal in the type-aware order have identical
encodings. -/
theorem partCmp_eq_encodeKeyPart {p q : KvKeyPart} (h : partCmp p q = .eq) :
    encodeKeyPart p = encodeKeyPart q := by
  cases p <;> cases q <;> simp only [partCmp, partRank] at h <;>
    first
    | exact absurd h (by decide)
    | rw [(memcmp_eq_iff _ _).mp h]
    | rw [compare_eq_iff_eq.mp h]
    | (have hc := floatCmp_eq_canon h
       simp only [encodeKeyPart, writeKvFloat, hc])

theorem floatCmp_gt_swap {a b : Nat} (h : floatCmp a b = .gt) : floatCmp b a = .lt := by
  rw [floatCmp] at h ⊢
  by_cases h1 : 2 ^ 63 ≤ canonicalizeNaNBits a <;>
    by_cases h2 : 2 ^ 63 ≤ canonicalizeNaNBits b <;>
      simp only [if_pos, if_neg, h1, h2, if_true, if_false] at h ⊢
  · rw [compare_lt_iff_lt]
    exact compare_gt_iff_gt.mp h
  · simp at h
  · rw [compare_lt_iff_lt]
    exact compare_gt_iff_gt.mp h

theorem partCmp_gt_swap {p q : KvKeyPart} (h : partCmp p q = .gt) : partCmp q p = .lt := by
  cases p <;> cases q <;> simp only [partCmp] at h ⊢ <;>
    first
    | exact (memcmp_gt_iff_swap _ _).mp h
    | exact floatCmp_gt_swap h
    | (rw [compare_lt_iff_lt]; exact compare_gt_iff_gt.mp h)

/-- Strict type-aware part order gives self-delimiting strict byte order
of the part encodings. -/
theorem partCmp_lt_selfDelimLt {p q : KvKeyPart} {u v : List Nat}
    (hu : encodeKeyPart p = some u) (hv : encodeKeyPart q = some v)
    (hwp : WfPart p) (hwq : WfPart q) (h : partCmp p q = .lt) : SelfDelimLt u v := by
  cases p <;> cases q <;>
    first
    | (apply rank_lt_selfDelimLt hu hv; simp only [partRank]; omega)
    | (simp only [partCmp, partRank] at h; exact absurd h (by decide))
    | skip
  case bytes.bytes x y =>
    simp only [partCmp] at h
    simp only [encodeKeyPart, Option.some_inj] at hu hv
    subst hu hv
    exact (escapeNul_selfDelimLt x y h).prepend [1]
  case str.str x y =>
    simp only [partCmp] at h
    simp only [encodeKeyPart, Option.some_inj] at hu hv
    subst hu hv
    exact (escapeNul_selfDelimLt x y h).prepend [2]
  case int.int i j =>
    simp only [partCmp] at h
    simp only [encodeKeyPart] at hu hv
    exact writeKvInt_selfDelimLt hu hv (compare_lt_iff_lt.mp h)
  case float.float a b =>
    simp only [partCmp] at h
    simp only [encodeKeyPart, Option.some_inj] at hu hv
    subst hu hv
    exact (writeKvFloat_selfDelimLt hwp hwq h).prepend [0x21]
  case bool.bool x y =>
    simp only [partCmp] at h
    have hx : x = false := by
      cases x <;> cases y <;> simp_all
    have hy : y = true := by
      cases x <;> cases y <;> simp_all
    subst hx hy
    simp only [encodeKeyPart, Option.some_inj] at hu hv
    subst hu hv
    exact Or.inl ⟨[], 0x26, 0x27, [], [], rfl, rfl, by omega⟩

theorem encodeKey_cons {p : KvKeyPart} {ps : List KvKeyPart} {e : List Nat}
    (h : encodeKey (p :: ps) = some e) :
    ∃ u rest, encodeKeyPart p = some u ∧ encodeKey ps = some rest ∧ e = u ++ rest := by
  simp only [encodeKey, Option.bind_eq_bind, Option.bind_eq_some] at h
  obtain ⟨u, hu, rest, hrest, he⟩ := h
  exact ⟨u, rest, hu, hrest, by simp at he; exact he.symm⟩

theorem encodeKey_headLt255 {k : List KvKeyPart} {e : List Nat}
    (h : encodeKey k = some e) : headLt255 e := by
  cases k with
  | nil =>
    simp only [encodeKey, Option.some_inj] at h
    subst h
    trivial
  | cons p ps =>
    obtain ⟨u, rest, hu, _, he⟩ := encodeKey_cons h
    obtain ⟨t, ru, hru, _, hthi⟩ := encodeKeyPart_head hu
    subst he hru
    show headLt255 ((t :: ru) ++ rest)
    have : t ≤ 0x27 := by
      have h5 : tagHi p ≤ 0x27 := by cases p <;> simp [tagHi]
      omega
    simpa [headLt255] using by omega

/-- The type-aware key comparison coincides with memcmp on encodings. -/
theorem keyCmp_eq_memcmp :
    ∀ (a b : List KvKeyPart) (ea eb : List Nat),
      (∀ p ∈ a, WfPart p) → (∀ p ∈ b, WfPart p) →
      encodeKey a = some ea → encodeKey b = some eb →
      keyCmp a b = memcmp ea eb := by
  intro a
  induction a with
  | nil =>
    intro b ea eb _ _ ha hb
    simp only [encodeKey, Option.some_inj] at ha
    subst ha
    cases b with
    | nil =>
      simp only [encodeKey, Option.some_inj] at hb
      subst hb
      rfl
    | cons q qs =>
      obtain ⟨v, rest, hv, _, he⟩ := encodeKey_cons hb
      obtain ⟨s, rv, hrv, _, _⟩ := encodeKeyPart_head hv
      subst he hrv
      rfl
  | cons p ps ih =>
    intro b ea eb hwa hwb ha hb
    obtain ⟨u, ru, hu, hru, hea⟩ := encodeKey_cons ha
    cases b with
    | nil =>
      simp only [encodeKey, Option.some_inj] at hb
      subst hb
      obtain ⟨t, ru2, hru2, _, _⟩ := encodeKeyPart_head hu
      subst hea hru2
      rfl
    | cons q qs =>
      obtain ⟨v, rv, hv, hrv, heb⟩ := encodeKey_cons hb
      subst hea heb
      have hwp : WfPart p := hwa p (by simp)
      have hwq : WfPart q := hwb q (by simp)
      have hcases : keyCmp (p :: ps) (q :: qs) =
          match partCmp p q with
          | .lt => Ordering.lt
          | .gt => Ordering.gt
          | .eq => keyCmp ps qs := rfl
      rw [hcases]
      cases hpc : partCmp p q with
      | lt =>
        have hd := partCmp_lt_selfDelimLt hu hv hwp hwq hpc
        rw [hd.memcmp_lt (encodeKey_headLt255 hru) (encodeKey_headLt255 hrv)]
      | gt =>
        have hd := partCmp_lt_selfDelimLt hv hu hwq hwp (partCmp_gt_swap hpc)
        rw [(memcmp_gt_iff_swap _ _).mpr
          (hd.memcmp_lt (encodeKey_headLt255 hrv) (encodeKey_headLt255 hru))]
      | eq =>
        have henc := partCmp_eq_encodeKeyPart hpc
        rw [henc] at hu
        have huv : u = v := by
          rw [hu] at hv
          exact Option.some_inj.mp (hv.symm) |>.symm
        subst huv
        rw [memcmp_append_same]
        exact ih qs ru rv (fun x hx => hwa x (by simp [hx])) (fun x hx => hwb x (by simp [hx]))
          hru hrv

/-- Corresponding parts of the two keys are equally typed (compared
positionwise for as long as both keys have parts). -/
def typesAligned : List KvKeyPart → List KvKeyPart → Prop
  | [], _ => True
  | _ :: _, [] => True
  | p :: ps, q :: qs => partRank p = partRank q ∧ typesAligned ps qs

/-- C1: for every pair of tuple keys a and b whose corresponding parts
are equally typed, the type-aware ordering of a versus b equals the
lexicographic byte comparison (memcmp) of encodeKey a and encodeKey b.
The float parts are required to be 64-bit patterns, and both keys must
actually encode (integer magnitudes of at most 255 bytes).  The proof
does not even need the type alignment: the tag byte ranges make part
encodings of different types sort consistently with the type rank. -/
theorem tupleKeyOrder_eq_memcmp (a b : List KvKeyPart) (ea eb : List Nat)
    (hwa : ∀ p ∈ a, WfPart p) (hwb : ∀ p ∈ b, WfPart p)
    (hta : typesAligned a b)
    (ha : encodeKey a = some ea) (hb : encodeKey b = some eb) :
    keyCmp a b = memcmp ea eb :=
  keyCmp_eq_memcmp a b ea eb hwa hwb ha hb

theorem tupleKeyOrder_eq_memcmp_witness :
    keyCmp [KvKeyPart.int 1, KvKeyPart.bool false] [KvKeyPart.int 2] =
      memcmp [0x15, 1, 0x26] [0x15, 2] := by
  apply tupleKeyOrder_eq_memcmp
  · intro p hp
    simp only [List.mem_cons, List.mem_singleton] at hp
    rcases hp with h | h | h <;> first | (subst h; trivial) | simp at h
  · intro p hp
    simp only [List.mem_singleton] at hp
    subst hp
    trivial
  · exact ⟨rfl, trivial⟩
  · simp [encodeKey, encodeKeyPart, writeKvInt, natToBytesBE]
  · simp [encodeKey, encodeKeyPart, writeKvInt, natToBytesBE]

/-- C3 counterexample: the NaN pattern with the sign bit set (the
canonical quiet NaN 0xfff8000000000000 with negative sign) is a NaN
input, yet its encoding sorts strictly BELOW the encoding of +Infinity
(pattern 0x7ff0000000000000): the claim that every NaN input sorts
strictly greater than +Infinity is false on the code. -/
theorem floatNaN_above_infinity_counterexample :
    isNaNBits 0xfff8000000000000 = true ∧
    encodeKey [KvKeyPart.float 0xfff8000000000000] =
      some [0x21, 0x00, 0x07, 0xff, 0xff, 0xff, 0xff, 0xff, 0xff] ∧
    encodeKey [KvKeyPart.float 0x7ff0000000000000] =
      some [0x21, 0xff, 0xf0, 0x00, 0x00, 0x00, 0x00, 0x00, 0x00] ∧
    memcmp [0x21, 0x00, 0x07, 0xff, 0xff, 0xff, 0xff, 0xff, 0xff]
      [0x21, 0xff, 0xf0, 0x00, 0x00, 0x00, 0x00, 0x00, 0x00] = Ordering.lt := by
  refine ⟨by decide, ?_, ?_, by decide⟩ <;> rfl

/-- C3 amended: on encode every NaN input is replaced by the canonical
quiet NaN pattern with its original sign bit before the XOR step, and
this collates NaNs per sign: every NaN with clear sign bit encodes
exactly like the canonical quiet NaN and sorts strictly greater than
+Infinity, while every NaN with set sign bit encodes exactly like the
negative canonical quiet NaN and sorts strictly less than -Infinity. -/
theorem floatNaN_canonicalization (bits : Nat) (h64 : bits < 2 ^ 64)
    (hnan : isNaNBits bits = true) :
    canonicalizeNaNBits bits = (bits &&& 2 ^ 63) ||| 0x7ff8000000000000 ∧
    (bits < 2 ^ 63 →
      writeKvFloat bits = writeKvFloat 0x7ff8000000000000 ∧
      memcmp (writeKvFloat 0x7ff0000000000000) (writeKvFloat bits) = .lt) ∧
    (2 ^ 63 ≤ bits →
      writeKvFloat bits = writeKvFloat 0xfff8000000000000 ∧
      memcmp (writeKvFloat bits) (writeKvFloat 0xfff0000000000000) = .lt) := by
  have hc : canonicalizeNaNBits bits = (bits &&& 2 ^ 63) ||| 0x7ff8000000000000 := by
    rw [canonicalizeNaNBits, if_pos hnan]
  refine ⟨hc, fun hlt => ?_, fun hge => ?_⟩
  · have hand : bits &&& 2 ^ 63 = 0 := by
      apply Nat.eq_of_testBit_eq
      intro i
      rw [Nat.testBit_and, Nat.zero_testBit]
      by_cases hi : i = 63
      · subst hi
        simp [Nat.testBit_lt_two_pow hlt]
      · simp [Nat.testBit_two_pow_of_ne (show 63 ≠ i by omega)]
    have hcv : canonicalizeNaNBits bits = 0x7ff8000000000000 := by
      rw [hc, hand]
      simp
    constructor
    · rw [writeKvFloat, writeKvFloat, hcv]
      decide
    · rw [writeKvFloat, writeKvFloat, hcv]
      decide
  · have hand : bits &&& 2 ^ 63 = 2 ^ 63 := by
      apply Nat.eq_of_testBit_eq
      intro i
      rw [Nat.testBit_and]
      by_cases hi : i = 63
      · subst hi
        have h1 : bits.testBit 63 = true := by
          rw [Nat.testBit_to_div_mod]
          have h2 : bits / 2 ^ 63 % 2 = 1 := by
            have : bits / 2 ^ 63 = 1 := by omega
            omega
          exact decide_eq_true h2
        simp [h1, Nat.testBit_two_pow_self]
      · simp [Nat.testBit_two_pow_of_ne (show 63 ≠ i by omega)]
    have hcv : canonicalizeNaNBits bits = 0xfff8000000000000 := by
      rw [hc, hand]
      decide
    constructor
    · rw [writeKvFloat, writeKvFloat, hcv]
      decide
    · rw [writeKvFloat, writeKvFloat, hcv]
      decide

theorem floatNaN_canonicalization_witness :
    memcmp (writeKvFloat 0x7ff0000000000000) (writeKvFloat 0x7ff8000000000001) =
      Ordering.lt :=
  ((floatNaN_canonicalization 0x7ff8000000000001 (by decide) (by decide)).2.1
    (by decide)).2

/-- RFC 3629 UTF-8 validity of a byte sequence: the acceptance condition
of the fatal TextDecoder through which readKvString runs the unescaped
bytes (invalid sequences throw). -/
def validUtf8 : List Nat → Bool
  | [] => true
  | b :: rest =>
    if b < 0x80 then validUtf8 rest
    else if b < 0xc2 then false
    else if b < 0xe0 then
      match rest with
      | c1 :: rest2 => decide (0x80 ≤ c1 ∧ c1 < 0xc0) && validUtf8 rest2
      | _ => false
    else if b < 0xf0 then
      match rest with
      | c1 :: c2 :: rest2 =>
        (if b = 0xe0 then decide (0xa0 ≤ c1 ∧ c1 < 0xc0)
         else if b = 0xed then decide (0x80 ≤ c1 ∧ c1 < 0xa0)
         else decide (0x80 ≤ c1 ∧ c1 < 0xc0)) &&
        decide (0x80 ≤ c2 ∧ c2 < 0xc0) && validUtf8 rest2
      | _ => false
    else if b < 0xf5 then
      match rest with
      | c1 :: c2 :: c3 :: rest2 =>
        (if b = 0xf0 then decide (0x90 ≤ c1 ∧ c1 < 0xc0)
         else if b = 0xf4 then decide (0x80 ≤ c1 ∧ c1 < 0x90)
         else decide (0x80 ≤ c1 ∧ c1 < 0xc0)) &&
        decide (0x80 ≤ c2 ∧ c2 < 0xc0) && decide (0x80 ≤ c3 ∧ c3 < 0xc0) &&
        validUtf8 rest2
      | _ => false
    else false
termination_by l => l.length
decreasing_by all_goals (simp only [List.length_cons]; omega)

/-- readKvString from key_codec.ts: the unescaped bytes are decoded by a
TextDecoder with fatal errors, which accepts exactly valid UTF-8; the
string part is represented by those bytes. -/
def readKvString (bytes : List Nat) : Option (List Nat × List Nat) :=
  (unescapeNul bytes).bind fun p => if validUtf8 p.1 then some p else none

/-- readKvFloat from key_codec.ts: 8 big-endian bytes, then the inverse
of the order transform. -/
def readKvFloat (bytes : List Nat) : Option (Nat × List Nat) :=
  if bytes.length < 8 then none
  else some (floatUnmapBits (beVal (bytes.take 8)), bytes.drop 8)

theorem unescapeNul_remaining_lt :
    ∀ (l : List Nat), ∀ v rem, unescapeNul l = some (v, rem) → rem.length < l.length := by
  intro l
  induction l using unescapeNul.induct with
  | case1 =>
    intro v rem h
    simp [unescapeNul] at h
  | case2 =>
    intro v rem h
    rw [unescapeNul_cons] at h
    simp at h
    obtain ⟨h1, h2⟩ := h
    subst h2
    simp
  | case3 rest2 ih =>
    intro v rem h
    have h' : (unescapeNul rest2).map (fun p => (0 :: p.1, p.2)) = some (v, rem) := by
      rw [unescapeNul_cons] at h
      simpa using h
    obtain ⟨p, hp, hpe⟩ := Option.map_eq_some'.mp h'
    have hb := ih p.1 p.2 (by rw [hp])
    have h2 : p.2 = rem := by
      have := congrArg Prod.snd hpe
      simpa using this
    subst h2
    simp only [List.length_cons]
    omega
  | case4 r rest2 hr =>
    intro v rem h
    rw [unescapeNul_cons] at h
    simp only [if_pos rfl, if_neg hr] at h
    have h2 : rem = r :: rest2 := by
      have := congrArg Prod.snd (Option.some_inj.mp h)
      simpa using this.symm
    rw [h2]
    simp
  | case5 r rest2 hr ih =>
    intro v rem h
    have h' : (unescapeNul rest2).map (fun p => (r :: p.1, p.2)) = some (v, rem) := by
      rw [unescapeNul_cons] at h
      simpa [hr] using h
    obtain ⟨p, hp, hpe⟩ := Option.map_eq_some'.mp h'
    have hb := ih p.1 p.2 (by rw [hp])
    have h2 : p.2 = rem := by
      have := congrArg Prod.snd hpe
      simpa using this
    subst h2
    simp only [List.length_cons]
    omega

theorem readKvString_remaining_lt {l v rem : List Nat}
    (h : readKvString l = some (v, rem)) : rem.length < l.length := by
  rw [readKvString] at h
  simp only [Option.bind_eq_some] at h
  obtain ⟨p, hp, he⟩ := h
  split at he
  · simp only [Option.some_inj] at he
    subst he
    exact unescapeNul_remaining_lt l v rem hp
  · simp at he

theorem readKvFloat_remaining_le {l : List Nat} {x : Nat} {rem : List Nat}
    (h : readKvFloat l = some (x, rem)) : rem.length ≤ l.length := by
  rw [readKvFloat] at h
  split at h
  · simp at h
  · simp only [Option.some_inj, Prod.mk.injEq] at h
    rw [← h.2]
    simp

theorem readKvInt_remaining_le {tag : Nat} {l : List Nat} {x : Int} {rem : List Nat}
    (h : readKvInt tag l = some (x, rem)) : rem.length ≤ l.length := by
  rw [readKvInt.eq_def] at h
  split at h
  · simp at h
  · split at h <;>
    · simp only [Option.bind_eq_some] at h
      obtain ⟨p, hp, he⟩ := h
      have hp2 : p.2.length ≤ l.length := by
        split at hp
        · match l, hp with
          | lb :: rest, hp =>
            simp only [Option.some_inj] at hp
            rw [← hp]
            simp
        · simp only [Option.some_inj] at hp
          rw [← hp]
      split at he
      · simp only [Option.some_inj, Prod.mk.injEq] at he
        have := congrArg List.length he.2
        simp at this
        omega
      · split at he
        · simp at he
        · simp only [Option.some_inj, Prod.mk.injEq] at he
          have : rem = p.2.drop p.1 := he.2.symm
          subst this
          simp only [List.length_drop]
          omega

/-- The decode loop of decodeKeyImpl from key_codec.ts over the byte
list, threading the range mode.  Each iteration reads a tag byte; with
allowRange a 0x00 tag switches the mode to after (1) and an 0xFF tag to
before (-1), and once the mode is nonzero and no bytes remain the loop
stops (discarding the tag just read).  Otherwise the tag dispatches to
the part readers, where 0x00 and 0xFF are invalid integer tags
(TypeError, i.e. none). -/
def decodeKeyLoop (allowRange : Bool) : List Nat → Int → Option (List KvKeyPart × Int)
  | [], mode => some ([], mode)
  | tag :: rest, mode =>
    let mode1 := if allowRange then
        (if tag = 0 then 1 else if tag = 255 then -1 else mode)
      else mode
    if allowRange ∧ mode1 ≠ 0 ∧ rest = [] then some ([], mode1)
    else if tag = 0x01 then
      match hp : unescapeNul rest with
      | none => none
      | some p =>
        (decodeKeyLoop allowRange p.2 mode1).map fun q => (KvKeyPart.bytes p.1 :: q.1, q.2)
    else if tag = 0x02 then
      match hp : readKvString rest with
      | none => none
      | some p =>
        (decodeKeyLoop allowRange p.2 mode1).map fun q => (KvKeyPart.str p.1 :: q.1, q.2)
    else if tag = 0x21 then
      match hp : readKvFloat rest with
      | none => none
      | some p =>
        (decodeKeyLoop allowRange p.2 mode1).map fun q => (KvKeyPart.float p.1 :: q.1, q.2)
    else if tag = 0x26 then
      (decodeKeyLoop allowRange rest mode1).map fun q => (KvKeyPart.bool false :: q.1, q.2)
    else if tag = 0x27 then
      (decodeKeyLoop allowRange rest mode1).map fun q => (KvKeyPart.bool true :: q.1, q.2)
    else
      match hp : readKvInt tag rest with
      | none => none
      | some p =>
        (decodeKeyLoop allowRange p.2 mode1).map fun q => (KvKeyPart.int p.1 :: q.1, q.2)
termination_by l => l.length
decreasing_by
  · have := unescapeNul_remaining_lt rest p.1 p.2 (by rw [hp])
    simp only [List.length_cons]
    omega
  · have := @readKvString_remaining_lt rest p.1 p.2 (by rw [hp])
    simp only [List.length_cons]
    omega
  · have := @readKvFloat_remaining_le rest p.1 p.2 (by rw [hp])
    simp only [List.length_cons]
    omega
  · simp only [List.length_cons]
    omega
  · simp only [List.length_cons]
    omega
  · have := @readKvInt_remaining_le tag rest p.1 p.2 (by rw [hp])
    simp only [List.length_cons]
    omega

/-- A decoded range key: the parts plus the endpoint mode
(1 = after, 0 = exact, -1 = before). -/
structure RangeKey where
  key : List KvKeyPart
  mode : Int
deriving DecidableEq

/-- decodeKeyImpl from key_codec.ts. -/
def decodeKeyImpl (bytes : List Nat) (allowRange : Bool) : Option RangeKey :=
  (decodeKeyLoop allowRange bytes 0).map fun p => ⟨p.1, p.2⟩

/-- decodeRangeKey from key_codec.ts. -/
def decodeRangeKey (bytes : List Nat) : Option RangeKey :=
  decodeKeyImpl bytes true

/-- decodeKey from key_codec.ts. -/
def decodeKey (bytes : List Nat) : Option (List KvKeyPart) :=
  (decodeKeyImpl bytes false).map RangeKey.key

theorem decodeKeyLoop_nil (ar : Bool) (mode : Int) :
    decodeKeyLoop ar [] mode = some ([], mode) := by
  rw [decodeKeyLoop.eq_def]

theorem decodeKeyLoop_bytes (ar : Bool) (rest : List Nat) {p : List Nat × List Nat}
    (hp : unescapeNul rest = some p) :
    decodeKeyLoop ar (1 :: rest) 0 =
      (decodeKeyLoop ar p.2 0).map fun q => (KvKeyPart.bytes p.1 :: q.1, q.2) := by
  rw [decodeKeyLoop.eq_def]
  simp only []
  have hm : (if ar = true then
      (if (1 : Nat) = 0 then (1 : Int) else if (1 : Nat) = 255 then -1 else 0) else 0) = 0 := by
    split <;> simp
  rw [hm]
  simp only [ne_eq, not_true_eq_false, and_false, false_and, if_false, if_pos rfl]
  split
  · split
    · rename_i heq2
      rw [hp] at heq2
      simp at heq2
    · rename_i p2 heq2
      rw [hp] at heq2
      have hpp : p = p2 := by simpa using heq2
      rw [hpp]
  · rename_i hfalse
    simp at hfalse

theorem decodeKeyLoop_str (ar : Bool) (rest : List Nat) {p : List Nat × List Nat}
    (hp : readKvString rest = some p) :
    decodeKeyLoop ar (2 :: rest) 0 =
      (decodeKeyLoop ar p.2 0).map fun q => (KvKeyPart.str p.1 :: q.1, q.2) := by
  rw [decodeKeyLoop.eq_def]
  simp only []
  have hm : (if ar = true then
      (if (2 : Nat) = 0 then (1 : Int) else if (2 : Nat) = 255 then -1 else 0) else 0) = 0 := by
    split <;> simp
  rw [hm]
  simp only [ne_eq, not_true_eq_false, and_false, false_and, if_false, if_pos rfl,
    if_neg (show ¬((2 : Nat) = 1) by omega)]
  split
  · split
    · rename_i heq2
      rw [hp] at heq2
      simp at heq2
    · rename_i p2 heq2
      rw [hp] at heq2
      have hpp : p = p2 := by simpa using heq2
      rw [hpp]
  · rename_i hfalse
    simp at hfalse

theorem decodeKeyLoop_float (ar : Bool) (rest : List Nat) {p : Nat × List Nat}
    (hp : readKvFloat rest = some p) :
    decodeKeyLoop ar (0x21 :: rest) 0 =
      (decodeKeyLoop ar p.2 0).map fun q => (KvKeyPart.float p.1 :: q.1, q.2) := by
  rw [decodeKeyLoop.eq_def]
  simp only []
  have hm : (if ar = true then
      (if (33 : Nat) = 0 then (1 : Int) else if (33 : Nat) = 255 then -1 else 0) else 0) = 0 := by
    split <;> simp
  rw [hm]
  simp only [ne_eq, not_true_eq_false, and_false, false_and, if_false, if_pos rfl,
    if_neg (show ¬((33 : Nat) = 1) by omega), if_neg (show ¬((33 : Nat) = 2) by omega)]
  split
  · split
    · rename_i heq2
      rw [hp] at heq2
      simp at heq2
    · rename_i p2 heq2
      rw [hp] at heq2
      have hpp : p = p2 := by simpa using heq2
      rw [hpp]
  · rename_i hfalse
    simp at hfalse

theorem decodeKeyLoop_bool_false (ar : Bool) (rest : List Nat) :
    decodeKeyLoop ar (0x26 :: rest) 0 =
      (decodeKeyLoop ar rest 0).map fun q => (KvKeyPart.bool false :: q.1, q.2) := by
  rw [decodeKeyLoop.eq_def]
  simp only []
  have hm : (if ar = true then
      (if (38 : Nat) = 0 then (1 : Int) else if (38 : Nat) = 255 then -1 else 0) else 0) = 0 := by
    split <;> simp
  rw [hm]
  simp only [ne_eq, not_true_eq_false, and_false, false_and, if_false, if_pos rfl,
    if_neg (show ¬((38 : Nat) = 1) by omega), if_neg (show ¬((38 : Nat) = 2) by omega),
    if_neg (show ¬((38 : Nat) = 33) by omega)]
  split
  · rfl
  · rename_i hfalse
    simp at hfalse

theorem decodeKeyLoop_bool_true (ar : Bool) (rest : List Nat) :
    decodeKeyLoop ar (0x27 :: rest) 0 =
      (decodeKeyLoop ar rest 0).map fun q => (KvKeyPart.bool true :: q.1, q.2) := by
  rw [decodeKeyLoop.eq_def]
  simp only []
  have hm : (if ar = true then
      (if (39 : Nat) = 0 then (1 : Int) else if (39 : Nat) = 255 then -1 else 0) else 0) = 0 := by
    split <;> simp
  rw [hm]
  simp only [ne_eq, not_true_eq_false, and_false, false_and, if_false, if_pos rfl,
    if_neg (show ¬((39 : Nat) = 1) by omega), if_neg (show ¬((39 : Nat) = 2) by omega),
    if_neg (show ¬((39 : Nat) = 33) by omega), if_neg (show ¬((39 : Nat) = 38) by omega)]
  split
  · rfl
  · rename_i hfalse
    simp at hfalse

theorem decodeKeyLoop_int (ar : Bool) (tag : Nat) (rest : List Nat) {p : Int × List Nat}
    (htag : 11 ≤ tag ∧ tag ≤ 29) (hp : readKvInt tag rest = some p) :
    decodeKeyLoop ar (tag :: rest) 0 =
      (decodeKeyLoop ar p.2 0).map fun q => (KvKeyPart.int p.1 :: q.1, q.2) := by
  have h0 : tag ≠ 0 := by omega
  have h255 : tag ≠ 255 := by omega
  have h1 : tag ≠ 1 := by omega
  have h2 : tag ≠ 2 := by omega
  have h33 : tag ≠ 33 := by omega
  have h38 : tag ≠ 38 := by omega
  have h39 : tag ≠ 39 := by omega
  rw [decodeKeyLoop.eq_def]
  simp only []
  have hm : (if ar = true then
      (if tag = 0 then (1 : Int) else if tag = 255 then -1 else 0) else 0) = 0 := by
    rw [if_neg h0, if_neg h255, ite_self]
  rw [hm]
  simp only [ne_eq, not_true_eq_false, and_false, false_and, if_false, if_neg h1, if_neg h2,
    if_neg h33, if_neg h38, if_neg h39]
  split
  · rename_i heq2
    rw [hp] at heq2
    simp at heq2
  · rename_i p2 heq2
    rw [hp] at heq2
    have hpp : p = p2 := by simpa using heq2
    rw [hpp]

theorem decodeKeyLoop_after_marker (m : Int) : decodeKeyLoop true [0] m = some ([], 1) := by
  rw [decodeKeyLoop.eq_def]
  norm_num

theorem decodeKeyLoop_before_marker (m : Int) : decodeKeyLoop true [255] m = some ([], -1) := by
  rw [decodeKeyLoop.eq_def]
  norm_num

theorem readKvInt_zero_tag (rest : List Nat) : readKvInt 0 rest = none := by
  rw [readKvInt.eq_def]
  simp

theorem readKvInt_255_tag (rest : List Nat) : readKvInt 255 rest = none := by
  rw [readKvInt.eq_def]
  simp

theorem decodeKeyLoop_after_marker_trailing (rest : List Nat) (m : Int) (h : rest ≠ []) :
    decodeKeyLoop true (0 :: rest) m = none := by
  rw [decodeKeyLoop.eq_def]
  simp only [eq_self_iff_true, if_true, true_and]
  rw [if_neg (show ¬((1 : Int) ≠ 0 ∧ rest = []) by simp [h])]
  simp only [if_neg (show ¬((0 : Nat) = 1) by omega), if_neg (show ¬((0 : Nat) = 2) by omega),
    if_neg (show ¬((0 : Nat) = 33) by omega), if_neg (show ¬((0 : Nat) = 38) by omega),
    if_neg (show ¬((0 : Nat) = 39) by omega)]
  split
  · rfl
  · rename_i p2 heq2
    rw [readKvInt_zero_tag] at heq2
    simp at heq2

theorem decodeKeyLoop_before_marker_trailing (rest : List Nat) (m : Int) (h : rest ≠ []) :
    decodeKeyLoop true (255 :: rest) m = none := by
  rw [decodeKeyLoop.eq_def]
  simp only [eq_self_iff_true, if_true, true_and]
  simp only [if_neg (show ¬((255 : Nat) = 0) by omega)]
  rw [if_neg (show ¬((-1 : Int) ≠ 0 ∧ rest = []) by simp [h])]
  simp only [if_neg (show ¬((255 : Nat) = 1) by omega), if_neg (show ¬((255 : Nat) = 2) by omega),
    if_neg (show ¬((255 : Nat) = 33) by omega), if_neg (show ¬((255 : Nat) = 38) by omega),
    if_neg (show ¬((255 : Nat) = 39) by omega)]
  split
  · rfl
  · rename_i p2 heq2
    rw [readKvInt_255_tag] at heq2
    simp at heq2

theorem decodeKeyLoop_noRange_zero (rest : List Nat) (m : Int) :
    decodeKeyLoop false (0 :: rest) m = none := by
  rw [decodeKeyLoop.eq_def]
  simp only [Bool.false_eq_true, if_false, false_and]
  simp only [if_neg (show ¬((0 : Nat) = 1) by omega), if_neg (show ¬((0 : Nat) = 2) by omega),
    if_neg (show ¬((0 : Nat) = 33) by omega), if_neg (show ¬((0 : Nat) = 38) by omega),
    if_neg (show ¬((0 : Nat) = 39) by omega)]
  split
  · rfl
  · rename_i p2 heq2
    rw [readKvInt_zero_tag] at heq2
    simp at heq2

theorem decodeKeyLoop_noRange_255 (rest : List Nat) (m : Int) :
    decodeKeyLoop false (255 :: rest) m = none := by
  rw [decodeKeyLoop.eq_def]
  simp only [Bool.false_eq_true, if_false, false_and]
  simp only [if_neg (show ¬((255 : Nat) = 1) by omega), if_neg (show ¬((255 : Nat) = 2) by omega),
    if_neg (show ¬((255 : Nat) = 33) by omega), if_neg (show ¬((255 : Nat) = 38) by omega),
    if_neg (show ¬((255 : Nat) = 39) by omega)]
  split
  · rfl
  · rename_i p2 heq2
    rw [readKvInt_255_tag] at heq2
    simp at heq2

theorem map_inv_inv (b : List Nat) :
    (b.map fun x => x ^^^ 255).map (fun x => x ^^^ 255) = b := by
  rw [List.map_map]
  have h : ∀ x ∈ b, ((fun x => x ^^^ 255) ∘ fun x => x ^^^ 255) x = x := by
    intro x _
    simp [Function.comp, Nat.xor_assoc]
  rw [List.map_congr_left h]
  simp

theorem readKvInt_pos (b rest : List Nat) (h8 : b.length ≤ 8) :
    readKvInt (20 + b.length) (b ++ rest) = some ((beVal b : Int), rest) := by
  rw [readKvInt.eq_def]
  rw [if_neg (show ¬(20 + b.length < 11 ∨ 29 < 20 + b.length) by omega)]
  rw [if_neg (show ¬(20 + b.length < 20) by omega)]
  rw [if_neg (show ¬(20 + b.length - 20 > 8) by omega)]
  rw [Option.some_bind]
  have hn : 20 + b.length - 20 = b.length := by omega
  simp only [hn]
  by_cases hn0 : b.length = 0
  · have hb : b = [] := List.eq_nil_of_length_eq_zero hn0
    subst hb
    simp [beVal]
  · rw [if_neg hn0]
    rw [if_neg (show ¬((b ++ rest).length < b.length) by simp)]
    rw [List.take_left, List.drop_left]

theorem readKvInt_pos_long (b rest : List Nat) (h9 : 8 < b.length) (h255 : b.length ≤ 255) :
    readKvInt 29 (b.length :: (b ++ rest)) = some ((beVal b : Int), rest) := by
  rw [readKvInt.eq_def]
  rw [if_neg (show ¬((29 : Nat) < 11 ∨ 29 < 29) by omega)]
  rw [if_neg (show ¬((29 : Nat) < 20) by omega)]
  rw [if_pos (show (29 : Nat) - 20 > 8 by omega)]
  rw [Option.some_bind]
  rw [if_neg (show ¬(b.length = 0) by omega)]
  rw [if_neg (show ¬((b ++ rest).length < b.length) by simp)]
  rw [List.take_left, List.drop_left]

theorem readKvInt_neg (b rest : List Nat) (h8 : b.length ≤ 8) (hpos : 0 < b.length) :
    readKvInt (20 - b.length) ((b.map fun x => x ^^^ 255) ++ rest) =
      some (-(beVal b : Int), rest) := by
  rw [readKvInt.eq_def]
  rw [if_neg (show ¬(20 - b.length < 11 ∨ 29 < 20 - b.length) by omega)]
  rw [if_pos (show 20 - b.length < 20 by omega)]
  rw [if_neg (show ¬(20 - (20 - b.length) > 8) by omega)]
  rw [Option.some_bind]
  have hn : 20 - (20 - b.length) = b.length := by omega
  simp only [hn]
  rw [if_neg (show ¬(b.length = 0) by omega)]
  have hlen : ¬(((b.map fun x => x ^^^ 255) ++ rest).length < b.length) := by
    simp only [List.length_append, List.length_map]
    omega
  rw [if_neg hlen]
  have ht : ((b.map fun x => x ^^^ 255) ++ rest).take b.length = b.map fun x => x ^^^ 255 := by
    have := List.take_left (b.map fun x => x ^^^ 255) rest
    simpa using this
  have hd : ((b.map fun x => x ^^^ 255) ++ rest).drop b.length = rest := by
    have := List.drop_left (b.map fun x => x ^^^ 255) rest
    simpa using this
  rw [ht, hd, map_inv_inv]

theorem readKvInt_neg_long (b rest : List Nat) (h9 : 8 < b.length) (h255 : b.length ≤ 255) :
    readKvInt 11 ((255 - b.length) :: ((b.map fun x => x ^^^ 255) ++ rest)) =
      some (-(beVal b : Int), rest) := by
  rw [readKvInt.eq_def]
  rw [if_neg (show ¬((11 : Nat) < 11 ∨ 29 < 11) by omega)]
  rw [if_pos (show (11 : Nat) < 20 by omega)]
  rw [if_pos (show (20 : Nat) - 11 > 8 by omega)]
  rw [Option.some_bind]
  have hn : 255 - (255 - b.length) = b.length := by omega
  simp only [hn]
  rw [if_neg (show ¬(b.length = 0) by omega)]
  have hlen : ¬(((b.map fun x => x ^^^ 255) ++ rest).length < b.length) := by
    simp only [List.length_append, List.length_map]
    omega
  rw [if_neg hlen]
  have ht : ((b.map fun x => x ^^^ 255) ++ rest).take b.length = b.map fun x => x ^^^ 255 := by
    have := List.take_left (b.map fun x => x ^^^ 255) rest
    simpa using this
  have hd : ((b.map fun x => x ^^^ 255) ++ rest).drop b.length = rest := by
    have := List.drop_left (b.map fun x => x ^^^ 255) rest
    simpa using this
  rw [ht, hd, map_inv_inv]

/-- Reading back a written integer part: the tag and body produced by
writeKvInt decode to the original integer, leaving any following bytes
untouched. -/
theorem readKvInt_writeKvInt {i : Int} {u : List Nat} (h : writeKvInt i = some u)
    (rest : List Nat) :
    ∃ tag body, u = tag :: body ∧ 11 ≤ tag ∧ tag ≤ 29 ∧
      readKvInt tag (body ++ rest) = some (i, rest) := by
  obtain ⟨hl, hc⟩ := writeKvInt_eq_some h
  rcases hc with ⟨hs, h8, he⟩ | ⟨hs, h8, he⟩ | ⟨hs, h8, he⟩ | ⟨hs, h8, he⟩
  · have hpos : 0 < (natToBytesBE i.natAbs).length := natToBytesBE_length_pos (by omega)
    refine ⟨_, _, he, by omega, by omega, ?_⟩
    rw [readKvInt_neg _ _ h8 hpos, beVal_natToBytesBE]
    have : -(i.natAbs : Int) = i := by omega
    rw [this]
  · refine ⟨_, _, he, by omega, by omega, ?_⟩
    rw [List.cons_append, readKvInt_neg_long _ _ h8 hl, beVal_natToBytesBE]
    have : -(i.natAbs : Int) = i := by omega
    rw [this]
  · refine ⟨_, _, he, by omega, by omega, ?_⟩
    rw [readKvInt_pos _ _ h8, beVal_natToBytesBE]
    have : (i.natAbs : Int) = i := by omega
    rw [this]
  · refine ⟨_, _, he, by omega, by omega, ?_⟩
    rw [List.cons_append, readKvInt_pos_long _ _ h8 hl, beVal_natToBytesBE]
    have : (i.natAbs : Int) = i := by omega
    rw [this]

theorem floatUnmapBits_floatMapBits {bits : Nat} (h : bits < 2 ^ 64) :
    floatUnmapBits (floatMapBits bits) = bits := by
  rw [floatMapBits]
  by_cases h1 : 2 ^ 63 ≤ bits
  · rw [if_pos h1, xor_two_pow_sub_one_of_lt h, floatUnmapBits]
    rw [if_neg (show ¬(2 ^ 63 ≤ 2 ^ 64 - 1 - bits) by omega)]
    rw [xor_two_pow_sub_one_of_lt (show 2 ^ 64 - 1 - bits < 2 ^ 64 by omega)]
    omega
  · rw [if_neg h1, xor_two_pow_of_lt (show bits < 2 ^ 63 by omega), floatUnmapBits]
    rw [if_pos (show 2 ^ 63 ≤ bits + 2 ^ 63 by omega)]
    rw [← xor_two_pow_of_lt (show bits < 2 ^ 63 by omega), Nat.xor_cancel_right]

/-- Representability of a key part: the exact condition for the encoded
part to decode back to itself.  A string part must be valid UTF-8 (the
fatal TextDecoder in readKvString rejects anything else, and TextEncoder
only produces valid UTF-8); a float part must be a 64-bit pattern fixed
by NaN canonicalization (at the JavaScript level every NaN is one value
and the codec re-reads exactly the canonical patterns). -/
def RepPart : KvKeyPart → Prop
  | .str s => validUtf8 s = true
  | .float bits => bits < 2 ^ 64 ∧ canonicalizeNaNBits bits = bits
  | _ => True

theorem headLt255_append {ps : List KvKeyPart} {rest tail : List Nat}
    (hrest : encodeKey ps = some rest) (htail : headLt255 tail) :
    headLt255 (rest ++ tail) := by
  cases ps with
  | nil =>
    simp only [encodeKey, Option.some_inj] at hrest
    subst hrest
    simpa
  | cons p ps2 =>
    obtain ⟨u, r2, hu, _, he⟩ := encodeKey_cons hrest
    obtain ⟨t, ru, hru, _, hthi⟩ := encodeKeyPart_head hu
    subst he hru
    show headLt255 (((t :: ru) ++ r2) ++ tail)
    have hb : tagHi p ≤ 0x27 := by cases p <;> simp [tagHi]
    show t < 255
    omega

/-- Decoding an encoded key followed by any tail not starting with 0xFF:
the parts are recovered exactly and the loop carries on into the
tail. -/
theorem decodeKeyLoop_encodeKey :
    ∀ (k : List KvKeyPart) (e : List Nat), (∀ p ∈ k, RepPart p) → encodeKey k = some e →
      ∀ (ar : Bool) (tail : List Nat), headLt255 tail →
      decodeKeyLoop ar (e ++ tail) 0 =
        (decodeKeyLoop ar tail 0).map fun q => (k ++ q.1, q.2) := by
  intro k
  induction k with
  | nil =>
    intro e hrep he ar tail htail
    simp only [encodeKey, Option.some_inj] at he
    subst he
    simp only [List.nil_append]
    cases hq : decodeKeyLoop ar tail 0 with
    | none => simp
    | some q => simp
  | cons p ps ih =>
    intro e hrep he ar tail htail
    obtain ⟨u, rest, hu, hrest, heq⟩ := encodeKey_cons he
    subst heq
    have hreprest : ∀ x ∈ ps, RepPart x := fun x hx => hrep x (by simp [hx])
    have hrp : RepPart p := hrep p (by simp)
    have hht : headLt255 (rest ++ tail) := headLt255_append hrest htail
    have hih := ih rest hreprest hrest ar tail htail
    cases p with
    | bytes v =>
      simp only [encodeKeyPart, Option.some_inj] at hu
      subst hu
      simp only [List.cons_append, List.append_assoc]
      rw [@decodeKeyLoop_bytes ar _ (v, rest ++ tail)
        (unescapeNul_escapeNul v (rest ++ tail) hht), hih]
      cases hq : decodeKeyLoop ar tail 0 <;> simp
    | str sv =>
      simp only [encodeKeyPart, Option.some_inj] at hu
      subst hu
      simp only [List.cons_append, List.append_assoc]
      have hrs : readKvString (escapeNul sv ++ (rest ++ tail)) = some (sv, rest ++ tail) := by
        rw [readKvString, unescapeNul_escapeNul sv _ hht, Option.some_bind]
        exact if_pos hrp
      rw [@decodeKeyLoop_str ar _ (sv, rest ++ tail) hrs, hih]
      cases hq : decodeKeyLoop ar tail 0 <;> simp
    | int iv =>
      simp only [encodeKeyPart] at hu
      obtain ⟨tag, body, hub, htlo, hthi, hread⟩ := readKvInt_writeKvInt hu (rest ++ tail)
      subst hub
      simp only [List.cons_append, List.append_assoc]
      rw [@decodeKeyLoop_int ar tag _ (iv, rest ++ tail) ⟨htlo, hthi⟩ hread, hih]
      cases hq : decodeKeyLoop ar tail 0 <;> simp
    | float bits =>
      simp only [encodeKeyPart, Option.some_inj] at hu
      subst hu
      simp only [List.cons_append, List.append_assoc]
      have h64 : bits < 2 ^ 64 := hrp.1
      have hcanon : canonicalizeNaNBits bits = bits := hrp.2
      have h8 : (writeKvFloat bits).length = 8 := by rw [writeKvFloat, beBytesFixed_length]
      have hrf : readKvFloat (writeKvFloat bits ++ (rest ++ tail)) =
          some (bits, rest ++ tail) := by
        rw [readKvFloat]
        rw [if_neg (show ¬((writeKvFloat bits ++ (rest ++ tail)).length < 8) by
          simp only [List.length_append, h8]; omega)]
        have ht : (writeKvFloat bits ++ (rest ++ tail)).take 8 = writeKvFloat bits := by
          rw [← h8, List.take_left]
        have hd : (writeKvFloat bits ++ (rest ++ tail)).drop 8 = rest ++ tail := by
          rw [← h8, List.drop_left]
        rw [ht, hd, writeKvFloat, beVal_beBytesFixed]
        have hmlt : floatMapBits (canonicalizeNaNBits bits) < 2 ^ 64 :=
          floatMapBits_lt (canonicalizeNaNBits_lt h64)
        have e8 : (256 : Nat) ^ 8 = 2 ^ 64 := by norm_num
        rw [e8, Nat.mod_eq_of_lt hmlt,
          floatUnmapBits_floatMapBits (canonicalizeNaNBits_lt h64), hcanon]
      rw [@decodeKeyLoop_float ar _ (bits, rest ++ tail) hrf, hih]
      cases hq : decodeKeyLoop ar tail 0 <;> simp
    | bool bv =>
      simp only [encodeKeyPart, Option.some_inj] at hu
      subst hu
      cases bv
      · rw [show (([if false then (0x27 : Nat) else 0x26] ++ rest) ++ tail) =
            (0x26 : Nat) :: (rest ++ tail) by simp]
        rw [decodeKeyLoop_bool_false, hih]
        cases hq : decodeKeyLoop ar tail 0 <;> simp
      · rw [show (([if true then (0x27 : Nat) else 0x26] ++ rest) ++ tail) =
            (0x27 : Nat) :: (rest ++ tail) by simp]
        rw [decodeKeyLoop_bool_true, hih]
        cases hq : decodeKeyLoop ar tail 0 <;> simp

/-- A byte buffer is a well-formed encoded key when it is the encoding
of some representable key. -/
def WellFormedEncodedKey (e : List Nat) : Prop :=
  ∃ k, (∀ p ∈ k, RepPart p) ∧ encodeKey k = some e

/-- C2: the tuple key codec round-trips: decodeKey recovers every
representable key from its encoding, and encodeKey maps the decode of
every well-formed encoded key back to the same bytes. -/
theorem tupleKeyCodec_roundTrip :
    (∀ (k : List KvKeyPart) (e : List Nat), (∀ p ∈ k, RepPart p) →
      encodeKey k = some e → decodeKey e = some k) ∧
    (∀ e : List Nat, WellFormedEncodedKey e →
      ∃ k, decodeKey e = some k ∧ encodeKey k = some e) := by
  have h1 : ∀ (k : List KvKeyPart) (e : List Nat), (∀ p ∈ k, RepPart p) →
      encodeKey k = some e → decodeKey e = some k := by
    intro k e hrep he
    have hl := decodeKeyLoop_encodeKey k e hrep he false [] trivial
    rw [List.append_nil] at hl
    rw [decodeKey, decodeKeyImpl, hl, decodeKeyLoop_nil]
    simp
  exact ⟨h1, fun e ⟨k, hrep, henc⟩ => ⟨k, h1 k e hrep henc, henc⟩⟩

theorem tupleKeyCodec_roundTrip_witness :
    decodeKey [0x15, 0x01, 0x26] = some [KvKeyPart.int 1, KvKeyPart.bool false] :=
  tupleKeyCodec_roundTrip.1 [KvKeyPart.int 1, KvKeyPart.bool false] [0x15, 0x01, 0x26]
    (by
      intro p hp
      simp only [List.mem_cons, List.mem_singleton] at hp
      rcases hp with h | h | h
      · subst h; trivial
      · subst h; trivial
      · simp at h)
    (by simp [encodeKey, encodeKeyPart, writeKvInt, natToBytesBE])

/-- C4 counterexample: with the range extension enabled, a marker byte in
tag position followed by further bytes is NOT ignored: decodeRangeKey
fails with a TypeError (the marker falls through to the integer tag
reader) instead of returning the parts decoded before the marker with
the rest ignored. -/
theorem rangeMarker_trailing_bytes_counterexample :
    decodeRangeKey [0x00, 0x26] = none ∧ decodeRangeKey [0xff, 0x26] = none ∧
    decodeRangeKey [0x00, 0x26] ≠ some ⟨[], 1⟩ := by
  refine ⟨?_, ?_, ?_⟩
  · rw [decodeRangeKey, decodeKeyImpl, decodeKeyLoop_after_marker_trailing [0x26] 0 (by simp)]
    rfl
  · rw [decodeRangeKey, decodeKeyImpl, decodeKeyLoop_before_marker_trailing [0x26] 0 (by simp)]
    rfl
  · rw [decodeRangeKey, decodeKeyImpl, decodeKeyLoop_after_marker_trailing [0x26] 0 (by simp)]
    simp

/-- C4 amended: with the range extension, a 0x00 in tag position sets
mode after and an 0xFF sets mode before, but the marker must be the last
byte of the buffer: a trailing 0x00 after an encoded key returns the
decoded parts unchanged with mode after, while a marker byte followed by
any further bytes fails the decode with a TypeError (the marker falls
through to the integer tag reader, for which 0x00 and 0xFF are invalid).
Without the range extension a 0x00 or 0xFF byte in tag position is
always a decode error. -/
theorem rangeMarker_decoding (k : List KvKeyPart) (e : List Nat)
    (hrep : ∀ p ∈ k, RepPart p) (he : encodeKey k = some e) :
    decodeRangeKey (e ++ [0x00]) = some ⟨k, 1⟩ ∧
    (∀ m : Int, decodeKeyLoop true [0xff] m = some ([], -1)) ∧
    (∀ (rest : List Nat) (m : Int), rest ≠ [] → decodeKeyLoop true (0x00 :: rest) m = none) ∧
    (∀ (rest : List Nat) (m : Int), rest ≠ [] → decodeKeyLoop true (0xff :: rest) m = none) ∧
    (∀ (rest : List Nat) (m : Int), decodeKeyLoop false (0x00 :: rest) m = none) ∧
    (∀ (rest : List Nat) (m : Int), decodeKeyLoop false (0xff :: rest) m = none) := by
  refine ⟨?_, decodeKeyLoop_before_marker,
    fun rest m h => decodeKeyLoop_after_marker_trailing rest m h,
    fun rest m h => decodeKeyLoop_before_marker_trailing rest m h,
    decodeKeyLoop_noRange_zero, decodeKeyLoop_noRange_255⟩
  have hl := decodeKeyLoop_encodeKey k e hrep he true [0x00] (by simp [headLt255])
  rw [decodeRangeKey, decodeKeyImpl, hl, decodeKeyLoop_after_marker]
  simp

theorem rangeMarker_decoding_witness :
    decodeRangeKey [0x26, 0x00] = some ⟨[KvKeyPart.bool false], 1⟩ :=
  (rangeMarker_decoding [KvKeyPart.bool false] [0x26]
    (by
      intro p hp
      simp only [List.mem_singleton] at hp
      subst hp
      trivial)
    (by simp [encodeKey, encodeKeyPart])).1

/-- Little-endian value of a byte list (first byte least significant). -/
def leVal : List Nat → Nat
  | [] => 0
  | b :: l => b + 256 * leVal l

/-- Fixed-width little-endian bytes (writeInt32LESync / writeBigInt64LESync
truncate their argument to the word width). -/
def leBytesFixed : Nat → Nat → List Nat
  | 0, _ => []
  | w + 1, n => n % 256 :: leBytesFixed w (n / 256)

theorem leVal_leBytesFixed (w : Nat) : ∀ n, leVal (leBytesFixed w n) = n % 256 ^ w := by
  induction w with
  | zero => intro n; simp [leBytesFixed, leVal, Nat.mod_one]
  | succ w ih =>
    intro n
    simp only [leBytesFixed, leVal, ih]
    rw [pow_succ, Nat.mul_comm (256 ^ w) 256, Nat.mod_mul]

theorem leBytesFixed_length (w : Nat) : ∀ n, (leBytesFixed w n).length = w := by
  induction w with
  | zero => intro n; rfl
  | succ w ih => intro n; simp [leBytesFixed, ih]

/-- Modelled from the spec: the binio variable-length integer reader
read_var_u64_le (readBigVarUint64LESync): LEB128, low 7 bits per byte,
most significant bit as continuation, at most 10 bytes; returns none at
end of input and rejects continuation past 10 bytes.  The fuel argument
counts the bytes still allowed. -/
def readVarint : Nat → List Nat → Option (Nat × List Nat)
  | _, [] => none
  | 0, _ => none
  | fuel + 1, b :: rest =>
    if b < 128 then some (b, rest)
    else (readVarint fuel rest).map fun p => (b % 128 + 128 * p.1, p.2)

/-- readPbVarint from protobuf.ts (an alias of the binio varint reader). -/
def readPbVarint (l : List Nat) : Option (Nat × List Nat) := readVarint 10 l

/-- Modelled from the spec: the binio variable-length integer writer
(writeBigVarInt64LESync) on the 64-bit value: 7 bits per byte starting
with the least significant, continuation bit set on every byte but the
last. -/
def writeVarint (n : Nat) : List Nat :=
  if h : n < 128 then [n] else (n % 128 + 128) :: writeVarint (n / 128)
termination_by n
decreasing_by exact Nat.div_lt_self (by omega) (by norm_num)

/-- writePbVarint from protobuf.ts: the value is taken as a 64-bit
(unsigned) quantity. -/
def writePbVarint (n : Nat) : List Nat := writeVarint (n % 2 ^ 64)

theorem readVarint_remaining_lt :
    ∀ (fuel : Nat) (l : List Nat) (v : Nat) (rest : List Nat),
      readVarint fuel l = some (v, rest) → rest.length < l.length := by
  intro fuel
  induction fuel with
  | zero => intro l v rest h; cases l <;> simp [readVarint] at h
  | succ fuel ih =>
    intro l v rest h
    cases l with
    | nil => simp [readVarint] at h
    | cons b l2 =>
      rw [readVarint] at h
      split at h
      · simp only [Option.some_inj, Prod.mk.injEq] at h
        rw [← h.2]
        simp
      · obtain ⟨p, hp, hpe⟩ := Option.map_eq_some'.mp h
        have := ih l2 p.1 p.2 (by rw [hp])
        have h2 : p.2 = rest := by
          have := congrArg Prod.snd hpe
          simpa using this
        subst h2
        simp only [List.length_cons]
        omega

theorem writeVarint_length_le : ∀ (k n : Nat), n < 128 ^ (k + 1) → (writeVarint n).length ≤ k + 1 := by
  intro k
  induction k with
  | zero =>
    intro n hn
    rw [writeVarint, dif_pos (by simpa using hn)]
    simp
  | succ k ih =>
    intro n hn
    by_cases h : n < 128
    · rw [writeVarint, dif_pos h]
      simp
    · rw [writeVarint, dif_neg h]
      have : n / 128 < 128 ^ (k + 1) := by
        rw [Nat.div_lt_iff_lt_mul (by norm_num : 0 < 128)]
        calc n < 128 ^ (k + 1 + 1) := hn
          _ = 128 ^ (k + 1) * 128 := by rw [pow_succ]
      have := ih (n / 128) this
      simp only [List.length_cons]
      omega

theorem readVarint_writeVarint :
    ∀ (n : Nat) (fuel : Nat) (rest : List Nat), (writeVarint n).length ≤ fuel →
      readVarint fuel (writeVarint n ++ rest) = some (n, rest) := by
  intro n
  induction n using Nat.strong_induction_on with
  | _ n ih =>
    intro fuel rest hlen
    by_cases h : n < 128
    · rw [writeVarint, dif_pos h] at hlen ⊢
      simp only [List.length_cons, List.length_nil] at hlen
      match fuel, hlen with
      | fuel + 1, _ =>
        simp only [List.cons_append, List.nil_append]
        rw [readVarint, if_pos h]
    · rw [writeVarint, dif_neg h] at hlen ⊢
      simp only [List.length_cons] at hlen
      match fuel, hlen with
      | fuel + 1, hlen =>
        simp only [List.cons_append]
        rw [readVarint, if_neg (show ¬(n % 128 + 128 < 128) by omega)]
        rw [ih (n / 128) (Nat.div_lt_self (by omega) (by norm_num)) fuel rest (by omega)]
        simp only [Option.map, Option.some_inj, Prod.mk.injEq]
        exact ⟨by omega, trivial⟩

theorem readPbVarint_writePbVarint {n : Nat} (h : n < 2 ^ 64) (rest : List Nat) :
    readPbVarint (writePbVarint n ++ rest) = some (n, rest) := by
  rw [readPbVarint, writePbVarint, Nat.mod_eq_of_lt h]
  apply readVarint_writeVarint
  have h10 : n < 128 ^ 10 := by
    calc n < 2 ^ 64 := h
      _ ≤ 128 ^ 10 := by norm_num
  exact writeVarint_length_le 9 n h10

/-! ### protobuf.ts: the tag-wire record codec -/

/-- decodePbUint32 from protobuf.ts: Number(BigInt.asUintN(32, raw)). -/
def decodePbUint32 (raw : Nat) : Nat := raw % 2 ^ 32

/-- decodePbInt32 from protobuf.ts: Number(BigInt.asIntN(32, raw)). -/
def decodePbInt32 (raw : Nat) : Int :=
  if raw % 2 ^ 32 < 2 ^ 31 then ((raw % 2 ^ 32 : Nat) : Int)
  else ((raw % 2 ^ 32 : Nat) : Int) - 2 ^ 32

/-- decodePbInt64 from protobuf.ts: BigInt.asIntN(64, raw). -/
def decodePbInt64 (raw : Nat) : Int :=
  if raw % 2 ^ 64 < 2 ^ 63 then ((raw % 2 ^ 64 : Nat) : Int)
  else ((raw % 2 ^ 64 : Nat) : Int) - 2 ^ 64

/-- decodePbBool from protobuf.ts: decodePbInt32(raw) !== 0. -/
def decodePbBool (raw : Nat) : Bool := decodePbInt32 raw != 0

/-- PbRecord from protobuf.ts: one tag-wire record.  VARINT and I64 values
are the raw unsigned 64-bit quantities (bigint in the source), an I32 value
is the raw unsigned 32-bit quantity, a LEN value is the payload bytes. -/
inductive PbRecord where
  | varint (fieldNumber : Nat) (value : Nat)
  | i64 (fieldNumber : Nat) (value : Nat)
  | len (fieldNumber : Nat) (value : List Nat)
  | sgroup (fieldNumber : Nat)
  | egroup (fieldNumber : Nat)
  | i32 (fieldNumber : Nat) (value : Nat)
deriving DecidableEq

/-- The fieldNumber component of a record. -/
def pbFieldNumber : PbRecord → Nat
  | .varint f _ => f
  | .i64 f _ => f
  | .len f _ => f
  | .sgroup f => f
  | .egroup f => f
  | .i32 f _ => f

/-- readPbLenPrefix from protobuf.ts: read the length varint (none when the
input ends before it), throw a RangeError when the length truncated to a
signed 32-bit integer is negative, then read that many payload bytes
(readFullSync, unexpectedEof when the payload is cut short). -/
def readPbLenPayload (l : List Nat) : Except String (Option (List Nat × List Nat)) :=
  match readPbVarint l with
  | none => .ok none
  | some (rawLen, rest) =>
    let len := decodePbInt32 rawLen
    if len < 0 then .error "Length prefixed payload is too long"
    else if rest.length < len.toNat then .error "Unexpected end of stream"
    else .ok (some (rest.take len.toNat, rest.drop len.toNat))

/-- readPbRecord from protobuf.ts: read the tag varint (none at end of
input), split it as fieldNumber = tag >>> 3 and wireType = tag & 7, then read
the payload per wire type (I64/I32 are fixed-width little-endian reads from
binio; a missing payload is unexpectedEof, wire types 6 and 7 are a
TypeError). -/
def readPbRecord (l : List Nat) : Except String (Option (PbRecord × List Nat)) :=
  match readPbVarint l with
  | none => .ok none
  | some (rawTag, rest) =>
    let tag := decodePbUint32 rawTag
    let fieldNumber := tag / 8
    let wireType := tag % 8
    if wireType = 0 then
      match readPbVarint rest with
      | none => .error "Unexpected end of stream"
      | some (value, rest2) => .ok (some (.varint fieldNumber value, rest2))
    else if wireType = 1 then
      if rest.length < 8 then .error "Unexpected end of stream"
      else .ok (some (.i64 fieldNumber (leVal (rest.take 8)), rest.drop 8))
    else if wireType = 2 then
      match readPbLenPayload rest with
      | .error e => .error e
      | .ok none => .error "Unexpected end of stream"
      | .ok (some (value, rest2)) => .ok (some (.len fieldNumber value, rest2))
    else if wireType = 5 then
      if rest.length < 4 then .error "Unexpected end of stream"
      else .ok (some (.i32 fieldNumber (leVal (rest.take 4)), rest.drop 4))
    else if wireType = 3 then .ok (some (.sgroup fieldNumber, rest))
    else if wireType = 4 then .ok (some (.egroup fieldNumber, rest))
    else .error "Invalid wire type"

/-- The record tag written by writePbRecord:
encodePbUint32((fieldNumber << 3) | wireType) in 32-bit JavaScript
arithmetic.  The shifted field number has zero in its low three bits, so the
bitwise OR with the wire type (always < 8) is addition. -/
def pbTag (fieldNumber wireType : Nat) : Nat := fieldNumber * 8 % 2 ^ 32 + wireType

/-- The bytes produced by writePbRecord from protobuf.ts, without its LEN
length check (encodePbInt32 truncates the payload length to 32 bits). -/
def pbRecordBytes : PbRecord → List Nat
  | .varint f v => writePbVarint (pbTag f 0) ++ writePbVarint v
  | .i64 f v => writePbVarint (pbTag f 1) ++ leBytesFixed 8 v
  | .len f v => writePbVarint (pbTag f 2) ++ writePbVarint (v.length % 2 ^ 32) ++ v
  | .sgroup f => writePbVarint (pbTag f 3)
  | .egroup f => writePbVarint (pbTag f 4)
  | .i32 f v => writePbVarint (pbTag f 5) ++ leBytesFixed 4 v

/-- writePbRecord from protobuf.ts; writePbLenPrefix throws a RangeError for
payloads longer than 0x7fffffff bytes. -/
def writePbRecord (rec : PbRecord) : Except String (List Nat) :=
  match rec with
  | .len _ v =>
    if 0x7fffffff < v.length then .error "Length prefixed payload too long"
    else .ok (pbRecordBytes rec)
  | _ => .ok (pbRecordBytes rec)

/-- A well-formed record: field number in the protobuf 29-bit range, values
in their wire-type range, LEN payload within writePbRecord's length bound. -/
def WfRecord : PbRecord → Prop
  | .varint f v => f < 2 ^ 29 ∧ v < 2 ^ 64
  | .i64 f v => f < 2 ^ 29 ∧ v < 2 ^ 64
  | .len f v => f < 2 ^ 29 ∧ v.length ≤ 0x7fffffff
  | .sgroup f => f < 2 ^ 29
  | .egroup f => f < 2 ^ 29
  | .i32 f v => f < 2 ^ 29 ∧ v < 2 ^ 32

theorem readPbLenPayload_remaining_lt (l v rest : List Nat)
    (h : readPbLenPayload l = .ok (some (v, rest))) : rest.length < l.length := by
  unfold readPbLenPayload at h
  cases hv : readPbVarint l with
  | none => rw [hv] at h; exact absurd h (by simp)
  | some p =>
    obtain ⟨rawLen, rest1⟩ := p
    rw [hv] at h
    simp only [] at h
    split at h
    · exact absurd h (by simp)
    · split at h
      · exact absurd h (by simp)
      · simp only [Except.ok.injEq, Option.some.injEq, Prod.mk.injEq] at h
        have hlt := readVarint_remaining_lt 10 l rawLen rest1 hv
        have hle : rest.length ≤ rest1.length := by
          rw [← h.2]
          simp [List.length_drop]
        omega

theorem readPbRecord_remaining_lt (l : List Nat) (rec : PbRecord) (rest : List Nat)
    (h : readPbRecord l = .ok (some (rec, rest))) : rest.length < l.length := by
  unfold readPbRecord at h
  cases hv : readPbVarint l with
  | none => rw [hv] at h; exact absurd h (by simp)
  | some p =>
    obtain ⟨rawTag, rest1⟩ := p
    rw [hv] at h
    simp only [] at h
    have hlt := readVarint_remaining_lt 10 l rawTag rest1 hv
    split at h
    · cases hv2 : readPbVarint rest1 with
      | none => rw [hv2] at h; exact absurd h (by simp)
      | some q =>
        obtain ⟨value, rest2⟩ := q
        rw [hv2] at h
        simp only [Except.ok.injEq, Option.some.injEq, Prod.mk.injEq] at h
        have hlt2 := readVarint_remaining_lt 10 rest1 value rest2 hv2
        have : rest = rest2 := h.2.symm
        subst this
        omega
    · split at h
      · split at h
        · exact absurd h (by simp)
        · simp only [Except.ok.injEq, Option.some.injEq, Prod.mk.injEq] at h
          have : rest = rest1.drop 8 := h.2.symm
          subst this
          simp only [List.length_drop]
          omega
      · split at h
        · cases hp : readPbLenPayload rest1 with
          | error e => rw [hp] at h; exact absurd h (by simp)
          | ok o =>
            cases o with
            | none => rw [hp] at h; exact absurd h (by simp)
            | some q =>
              obtain ⟨value, rest2⟩ := q
              rw [hp] at h
              simp only [Except.ok.injEq, Option.some.injEq, Prod.mk.injEq] at h
              have hlt2 := readPbLenPayload_remaining_lt rest1 value rest2 hp
              have : rest = rest2 := h.2.symm
              subst this
              omega
        · split at h
          · split at h
            · exact absurd h (by simp)
            · simp only [Except.ok.injEq, Option.some.injEq, Prod.mk.injEq] at h
              have : rest = rest1.drop 4 := h.2.symm
              subst this
              simp only [List.length_drop]
              omega
          · split at h
            · simp only [Except.ok.injEq, Option.some.injEq, Prod.mk.injEq] at h
              have : rest = rest1 := h.2.symm
              subst this
              omega
            · split at h
              · simp only [Except.ok.injEq, Option.some.injEq, Prod.mk.injEq] at h
                have : rest = rest1 := h.2.symm
                subst this
                omega
              · exact absurd h (by simp)

theorem pbTag_eq {f : Nat} (w : Nat) (hf : f < 2 ^ 29) : pbTag f w = 8 * f + w := by
  unfold pbTag
  have : f * 8 < 2 ^ 32 := by omega
  rw [Nat.mod_eq_of_lt this]
  omega

/-- Reading back a single well-formed record (the read ∘ write round trip of
the tag-wire codec on one record followed by arbitrary bytes). -/
theorem readPbRecord_pbRecordBytes (rec : PbRecord) (hwf : WfRecord rec) (rest : List Nat) :
    readPbRecord (pbRecordBytes rec ++ rest) = .ok (some (rec, rest)) := by
  cases rec with
  | varint f v =>
    obtain ⟨hf, hv⟩ := hwf
    have htag := pbTag_eq 0 hf
    have htlt : pbTag f 0 < 2 ^ 64 := by omega
    have h32 : decodePbUint32 (pbTag f 0) = 8 * f + 0 := by
      simp only [decodePbUint32]
      rw [Nat.mod_eq_of_lt (by omega), htag]
    have hmod : (8 * f + 0) % 8 = 0 := by omega
    have hdiv : (8 * f + 0) / 8 = f := by omega
    simp only [pbRecordBytes, List.append_assoc]
    unfold readPbRecord
    rw [readPbVarint_writePbVarint htlt]
    simp only [h32, hmod, hdiv]
    rw [if_pos trivial, readPbVarint_writePbVarint hv]
  | i64 f v =>
    obtain ⟨hf, hv⟩ := hwf
    have htag := pbTag_eq 1 hf
    have htlt : pbTag f 1 < 2 ^ 64 := by omega
    have h32 : decodePbUint32 (pbTag f 1) = 8 * f + 1 := by
      simp only [decodePbUint32]
      rw [Nat.mod_eq_of_lt (by omega), htag]
    have hmod : (8 * f + 1) % 8 = 1 := by omega
    have hdiv : (8 * f + 1) / 8 = f := by omega
    have hlen : (leBytesFixed 8 v).length = 8 := leBytesFixed_length 8 v
    simp only [pbRecordBytes, List.append_assoc]
    unfold readPbRecord
    rw [readPbVarint_writePbVarint htlt]
    simp only [h32, hmod, hdiv]
    rw [if_neg (by decide), if_pos trivial]
    rw [if_neg (by simp only [List.length_append, hlen]; omega)]
    rw [List.take_left' hlen, List.drop_left' hlen, leVal_leBytesFixed,
      Nat.mod_eq_of_lt (show v < 256 ^ 8 by norm_num; omega)]
  | len f v =>
    obtain ⟨hf, hv⟩ := hwf
    have htag := pbTag_eq 2 hf
    have htlt : pbTag f 2 < 2 ^ 64 := by omega
    have h32 : decodePbUint32 (pbTag f 2) = 8 * f + 2 := by
      simp only [decodePbUint32]
      rw [Nat.mod_eq_of_lt (by omega), htag]
    have hmod : (8 * f + 2) % 8 = 2 := by omega
    have hdiv : (8 * f + 2) / 8 = f := by omega
    have hvlen : v.length % 2 ^ 32 = v.length := Nat.mod_eq_of_lt (by omega)
    have hp : readPbLenPayload (writePbVarint (v.length % 2 ^ 32) ++ (v ++ rest)) =
        .ok (some (v, rest)) := by
      unfold readPbLenPayload
      rw [hvlen, readPbVarint_writePbVarint (show v.length < 2 ^ 64 by omega)]
      have hd : decodePbInt32 v.length = (v.length : Int) := by
        unfold decodePbInt32
        rw [Nat.mod_eq_of_lt (show v.length < 2 ^ 32 by omega)]
        rw [if_pos (show v.length < 2 ^ 31 by omega)]
      simp only [hd]
      rw [if_neg (show ¬((v.length : Int) < 0) by omega)]
      rw [Int.toNat_natCast]
      rw [if_neg (show ¬((v ++ rest).length < v.length) by simp)]
      rw [List.take_left' rfl, List.drop_left' rfl]
    simp only [pbRecordBytes, List.append_assoc]
    unfold readPbRecord
    rw [readPbVarint_writePbVarint htlt]
    simp only [h32, hmod, hdiv]
    rw [if_neg (by decide), if_neg (by decide), if_pos trivial, hp]
  | sgroup f =>
    have hf : f < 2 ^ 29 := hwf
    have htag := pbTag_eq 3 hf
    have htlt : pbTag f 3 < 2 ^ 64 := by omega
    have h32 : decodePbUint32 (pbTag f 3) = 8 * f + 3 := by
      simp only [decodePbUint32]
      rw [Nat.mod_eq_of_lt (by omega), htag]
    have hmod : (8 * f + 3) % 8 = 3 := by omega
    have hdiv : (8 * f + 3) / 8 = f := by omega
    simp only [pbRecordBytes, List.append_assoc]
    unfold readPbRecord
    rw [readPbVarint_writePbVarint htlt]
    simp only [h32, hmod, hdiv]
    rw [if_neg (by decide), if_neg (by decide), if_neg (by decide), if_neg (by decide),
      if_pos trivial]
  | egroup f =>
    have hf : f < 2 ^ 29 := hwf
    have htag := pbTag_eq 4 hf
    have htlt : pbTag f 4 < 2 ^ 64 := by omega
    have h32 : decodePbUint32 (pbTag f 4) = 8 * f + 4 := by
      simp only [decodePbUint32]
      rw [Nat.mod_eq_of_lt (by omega), htag]
    have hmod : (8 * f + 4) % 8 = 4 := by omega
    have hdiv : (8 * f + 4) / 8 = f := by omega
    simp only [pbRecordBytes, List.append_assoc]
    unfold readPbRecord
    rw [readPbVarint_writePbVarint htlt]
    simp only [h32, hmod, hdiv]
    rw [if_neg (by decide), if_neg (by decide), if_neg (by decide), if_neg (by decide),
      if_neg (by decide), if_pos trivial]
  | i32 f v =>
    obtain ⟨hf, hv⟩ := hwf
    have htag := pbTag_eq 5 hf
    have htlt : pbTag f 5 < 2 ^ 64 := by omega
    have h32 : decodePbUint32 (pbTag f 5) = 8 * f + 5 := by
      simp only [decodePbUint32]
      rw [Nat.mod_eq_of_lt (by omega), htag]
    have hmod : (8 * f + 5) % 8 = 5 := by omega
    have hdiv : (8 * f + 5) / 8 = f := by omega
    have hlen : (leBytesFixed 4 v).length = 4 := leBytesFixed_length 4 v
    simp only [pbRecordBytes, List.append_assoc]
    unfold readPbRecord
    rw [readPbVarint_writePbVarint htlt]
    simp only [h32, hmod, hdiv]
    rw [if_neg (by decide), if_neg (by decide), if_neg (by decide), if_pos trivial]
    rw [if_neg (by simp only [List.length_append, hlen]; omega)]
    rw [List.take_left' hlen, List.drop_left' hlen, leVal_leBytesFixed,
      Nat.mod_eq_of_lt (show v < 256 ^ 4 by norm_num; omega)]

/-- The record-reading loop shared by all datapath message decoders
(`for (;;) \x7b const record = readPbRecord(r); if (!record) break; switch ... \x7d`):
read records until end of input, feeding each to the decoder's switch
statement (the step function); any thrown error propagates. -/
def runMessageDecoder {α : Type} (step : α → PbRecord → Except String α) (acc : α)
    (l : List Nat) : Except String α :=
  match hr : readPbRecord l with
  | .error e => .error e
  | .ok none => .ok acc
  | .ok (some (rec, rest)) =>
    match step acc rec with
    | .error e => .error e
    | .ok acc2 => runMessageDecoder step acc2 rest
termination_by l.length
decreasing_by exact readPbRecord_remaining_lt l rec rest hr

theorem runMessageDecoder_nil {α : Type} (step : α → PbRecord → Except String α) (acc : α) :
    runMessageDecoder step acc [] = .ok acc := by
  rw [runMessageDecoder.eq_def]
  have h : readPbRecord [] = .ok none := rfl
  split
  · next e he => rw [h] at he; cases he
  · rfl
  · next rec rest hr => rw [h] at hr; cases hr

theorem runMessageDecoder_record {α : Type} (step : α → PbRecord → Except String α) (acc : α)
    (r : PbRecord) (hwf : WfRecord r) (rest : List Nat) :
    runMessageDecoder step acc (pbRecordBytes r ++ rest) =
      match step acc r with
      | .error e => .error e
      | .ok acc2 => runMessageDecoder step acc2 rest := by
  have h := readPbRecord_pbRecordBytes r hwf rest
  rw [runMessageDecoder.eq_def]
  split
  · next e he => rw [h] at he; cases he
  · next hn => rw [h] at hn; cases hn
  · next rec rest2 hr =>
    rw [h] at hr
    simp only [Except.ok.injEq, Option.some.injEq, Prod.mk.injEq] at hr
    rw [hr.1, hr.2]

/-- Inserting one record that the step function ignores, at any record
boundary of the input, does not change the result of the decoding loop. -/
theorem runMessageDecoder_skip_insert {α : Type} (step : α → PbRecord → Except String α)
    (r0 : PbRecord) (hwf0 : WfRecord r0) (hskip : ∀ m, step m r0 = .ok m) :
    ∀ (rs : List PbRecord), (∀ r ∈ rs, WfRecord r) →
      ∀ (acc : α) (suffix : List Nat),
        runMessageDecoder step acc ((rs.map pbRecordBytes).flatten ++ pbRecordBytes r0 ++ suffix) =
        runMessageDecoder step acc ((rs.map pbRecordBytes).flatten ++ suffix) := by
  intro rs
  induction rs with
  | nil =>
    intro _ acc suffix
    simp only [List.map_nil, List.flatten_nil, List.nil_append]
    rw [runMessageDecoder_record step acc r0 hwf0 suffix, hskip acc]
  | cons r rs ih =>
    intro hwf acc suffix
    have hr : WfRecord r := hwf r (by simp)
    have hrs : ∀ x ∈ rs, WfRecord x := fun x hx => hwf x (by simp [hx])
    simp only [List.map_cons, List.flatten_cons, List.append_assoc]
    rw [runMessageDecoder_record step acc r hr, runMessageDecoder_record step acc r hr]
    cases step acc r with
    | error e => rfl
    | ok acc2 =>
      simp only []
      have := ih hrs acc2 suffix
      simpa [List.append_assoc] using this

/-! ### datapath.proto.ts: the datapath message decoders -/

/-- decodePbPackedUint32 from protobuf.ts: read varints from the raw payload
until end of input, pushing each, decoded as a uint32, onto the
accumulator. -/
def decodePbPackedUint32 (raw into : List Nat) : List Nat :=
  match hr : readPbVarint raw with
  | none => into
  | some (v, rest) => decodePbPackedUint32 rest (into ++ [decodePbUint32 v])
termination_by raw.length
decreasing_by exact readVarint_remaining_lt 10 raw v rest hr

/-- ReadRange message from datapath.proto.ts. -/
structure ReadRange where
  start : List Nat
  «end» : List Nat
  limit : Int
  reverse : Bool
deriving DecidableEq

/-- defaultReadRange from datapath.proto.ts. -/
def defaultReadRange : ReadRange := ⟨[], [], 0, false⟩

/-- The switch statement of decodeReadRange: fields 1 (LEN start),
2 (LEN end), 3 (VARINT int32 limit), 4 (VARINT bool reverse); a known
field with the wrong wire type is an assertWireType error; anything else
falls through the switch and is skipped. -/
def readRangeStep (m : ReadRange) (rec : PbRecord) : Except String ReadRange :=
  if pbFieldNumber rec = 1 then
    match rec with
    | .len _ v => .ok { m with start := v }
    | _ => .error "Invalid wire type"
  else if pbFieldNumber rec = 2 then
    match rec with
    | .len _ v => .ok { m with «end» := v }
    | _ => .error "Invalid wire type"
  else if pbFieldNumber rec = 3 then
    match rec with
    | .varint _ v => .ok { m with limit := decodePbInt32 v }
    | _ => .error "Invalid wire type"
  else if pbFieldNumber rec = 4 then
    match rec with
    | .varint _ v => .ok { m with reverse := decodePbBool v }
    | _ => .error "Invalid wire type"
  else .ok m

/-- decodeReadRange from datapath.proto.ts. -/
def decodeReadRange (buf : List Nat) : Except String ReadRange :=
  runMessageDecoder readRangeStep defaultReadRange buf

/-- SnapshotRead message from datapath.proto.ts. -/
structure SnapshotRead where
  ranges : List ReadRange
deriving DecidableEq

/-- defaultSnapshotRead from datapath.proto.ts. -/
def defaultSnapshotRead : SnapshotRead := ⟨[]⟩

/-- The switch statement of decodeSnapshotRead: field 1 (LEN) pushes a
decoded ReadRange. -/
def snapshotReadStep (m : SnapshotRead) (rec : PbRecord) : Except String SnapshotRead :=
  if pbFieldNumber rec = 1 then
    match rec with
    | .len _ v => (decodeReadRange v).map fun r => ⟨m.ranges ++ [r]⟩
    | _ => .error "Invalid wire type"
  else .ok m

/-- decodeSnapshotRead from datapath.proto.ts. -/
def decodeSnapshotRead (buf : List Nat) : Except String SnapshotRead :=
  runMessageDecoder snapshotReadStep defaultSnapshotRead buf

/-- Check message from datapath.proto.ts. -/
structure Check where
  key : List Nat
  versionstamp : List Nat
deriving DecidableEq

/-- defaultCheck from datapath.proto.ts. -/
def defaultCheck : Check := ⟨[], []⟩

/-- The switch statement of decodeCheck: fields 1 (LEN key) and
2 (LEN versionstamp). -/
def checkStep (m : Check) (rec : PbRecord) : Except String Check :=
  if pbFieldNumber rec = 1 then
    match rec with
    | .len _ v => .ok { m with key := v }
    | _ => .error "Invalid wire type"
  else if pbFieldNumber rec = 2 then
    match rec with
    | .len _ v => .ok { m with versionstamp := v }
    | _ => .error "Invalid wire type"
  else .ok m

/-- decodeCheck from datapath.proto.ts. -/
def decodeCheck (buf : List Nat) : Except String Check :=
  runMessageDecoder checkStep defaultCheck buf

/-- KvValue message from datapath.proto.ts. -/
structure KvValue where
  data : List Nat
  encoding : Int
deriving DecidableEq

/-- defaultKvValue from datapath.proto.ts. -/
def defaultKvValue : KvValue := ⟨[], 0⟩

/-- The switch statement of decodeKvValue: fields 1 (LEN data) and
2 (VARINT int32 encoding). -/
def kvValueStep (m : KvValue) (rec : PbRecord) : Except String KvValue :=
  if pbFieldNumber rec = 1 then
    match rec with
    | .len _ v => .ok { m with data := v }
    | _ => .error "Invalid wire type"
  else if pbFieldNumber rec = 2 then
    match rec with
    | .varint _ v => .ok { m with encoding := decodePbInt32 v }
    | _ => .error "Invalid wire type"
  else .ok m

/-- decodeKvValue from datapath.proto.ts. -/
def decodeKvValue (buf : List Nat) : Except String KvValue :=
  runMessageDecoder kvValueStep defaultKvValue buf

/-- Mutation message from datapath.proto.ts. -/
structure Mutation where
  key : List Nat
  value : Option KvValue
  mutation_type : Int
  expire_at_ms : Int
  sum_min : List Nat
  sum_max : List Nat
  sum_clamp : Bool
deriving DecidableEq

/-- defaultMutation from datapath.proto.ts. -/
def defaultMutation : Mutation := ⟨[], none, 0, 0, [], [], false⟩

/-- The switch statement of decodeMutation: fields 1 (LEN key),
2 (LEN value, a nested KvValue), 3 (VARINT int32 mutation_type),
4 (VARINT int64 expire_at_ms), 5 (LEN sum_min), 6 (LEN sum_max),
7 (VARINT bool sum_clamp). -/
def mutationStep (m : Mutation) (rec : PbRecord) : Except String Mutation :=
  if pbFieldNumber rec = 1 then
    match rec with
    | .len _ v => .ok { m with key := v }
    | _ => .error "Invalid wire type"
  else if pbFieldNumber rec = 2 then
    match rec with
    | .len _ v => (decodeKvValue v).map fun kv => { m with value := some kv }
    | _ => .error "Invalid wire type"
  else if pbFieldNumber rec = 3 then
    match rec with
    | .varint _ v => .ok { m with mutation_type := decodePbInt32 v }
    | _ => .error "Invalid wire type"
  else if pbFieldNumber rec = 4 then
    match rec with
    | .varint _ v => .ok { m with expire_at_ms := decodePbInt64 v }
    | _ => .error "Invalid wire type"
  else if pbFieldNumber rec = 5 then
    match rec with
    | .len _ v => .ok { m with sum_min := v }
    | _ => .error "Invalid wire type"
  else if pbFieldNumber rec = 6 then
    match rec with
    | .len _ v => .ok { m with sum_max := v }
    | _ => .error "Invalid wire type"
  else if pbFieldNumber rec = 7 then
    match rec with
    | .varint _ v => .ok { m with sum_clamp := decodePbBool v }
    | _ => .error "Invalid wire type"
  else .ok m

/-- decodeMutation from datapath.proto.ts. -/
def decodeMutation (buf : List Nat) : Except String Mutation :=
  runMessageDecoder mutationStep defaultMutation buf

/-- Enqueue message from datapath.proto.ts. -/
structure Enqueue where
  payload : List Nat
  deadline_ms : Int
  keys_if_undelivered : List (List Nat)
  backoff_schedule : List Nat
deriving DecidableEq

/-- defaultEnqueue from datapath.proto.ts. -/
def defaultEnqueue : Enqueue := ⟨[], 0, [], []⟩

/-- The switch statement of decodeEnqueue: fields 1 (LEN payload),
2 (VARINT int64 deadline_ms), 3 (LEN, pushed onto keys_if_undelivered) and
4, which accepts either wire type: a VARINT record pushes one uint32, any
other wire type must be LEN and is decoded as packed uint32s. -/
def enqueueStep (m : Enqueue) (rec : PbRecord) : Except String Enqueue :=
  if pbFieldNumber rec = 1 then
    match rec with
    | .len _ v => .ok { m with payload := v }
    | _ => .error "Invalid wire type"
  else if pbFieldNumber rec = 2 then
    match rec with
    | .varint _ v => .ok { m with deadline_ms := decodePbInt64 v }
    | _ => .error "Invalid wire type"
  else if pbFieldNumber rec = 3 then
    match rec with
    | .len _ v => .ok { m with keys_if_undelivered := m.keys_if_undelivered ++ [v] }
    | _ => .error "Invalid wire type"
  else if pbFieldNumber rec = 4 then
    match rec with
    | .varint _ v => .ok { m with backoff_schedule := m.backoff_schedule ++ [decodePbUint32 v] }
    | .len _ v => .ok { m with backoff_schedule := decodePbPackedUint32 v m.backoff_schedule }
    | _ => .error "Invalid wire type"
  else .ok m

/-- decodeEnqueue from datapath.proto.ts. -/
def decodeEnqueue (buf : List Nat) : Except String Enqueue :=
  runMessageDecoder enqueueStep defaultEnqueue buf

/-- AtomicWrite message from datapath.proto.ts. -/
structure AtomicWrite where
  checks : List Check
  mutations : List Mutation
  enqueues : List Enqueue
deriving DecidableEq

/-- defaultAtomicWrite from datapath.proto.ts. -/
def defaultAtomicWrite : AtomicWrite := ⟨[], [], []⟩

/-- The switch statement of decodeAtomicWrite: fields 1 (LEN, pushes a
decoded Check), 2 (LEN, pushes a decoded Mutation), 3 (LEN, pushes a
decoded Enqueue). -/
def atomicWriteStep (m : AtomicWrite) (rec : PbRecord) : Except String AtomicWrite :=
  if pbFieldNumber rec = 1 then
    match rec with
    | .len _ v => (decodeCheck v).map fun c => { m with checks := m.checks ++ [c] }
    | _ => .error "Invalid wire type"
  else if pbFieldNumber rec = 2 then
    match rec with
    | .len _ v => (decodeMutation v).map fun mu => { m with mutations := m.mutations ++ [mu] }
    | _ => .error "Invalid wire type"
  else if pbFieldNumber rec = 3 then
    match rec with
    | .len _ v => (decodeEnqueue v).map fun e => { m with enqueues := m.enqueues ++ [e] }
    | _ => .error "Invalid wire type"
  else .ok m

/-- decodeAtomicWrite from datapath.proto.ts. -/
def decodeAtomicWrite (buf : List Nat) : Except String AtomicWrite :=
  runMessageDecoder atomicWriteStep defaultAtomicWrite buf

/-- WatchKey message from datapath.proto.ts. -/
structure WatchKey where
  key : List Nat
deriving DecidableEq

/-- defaultWatchKey from datapath.proto.ts. -/
def defaultWatchKey : WatchKey := ⟨[]⟩

/-- The switch statement of decodeWatchKey: field 1 (LEN key). -/
def watchKeyStep (m : WatchKey) (rec : PbRecord) : Except String WatchKey :=
  if pbFieldNumber rec = 1 then
    match rec with
    | .len _ v => .ok ⟨v⟩
    | _ => .error "Invalid wire type"
  else .ok m

/-- decodeWatchKey from datapath.proto.ts. -/
def decodeWatchKey (buf : List Nat) : Except String WatchKey :=
  runMessageDecoder watchKeyStep defaultWatchKey buf

/-- Watch message from datapath.proto.ts. -/
structure Watch where
  keys : List WatchKey
deriving DecidableEq

/-- defaultWatch from datapath.proto.ts. -/
def defaultWatch : Watch := ⟨[]⟩

/-- The switch statement of decodeWatch: field 1 (LEN, pushes a decoded
WatchKey). -/
def watchStep (m : Watch) (rec : PbRecord) : Except String Watch :=
  if pbFieldNumber rec = 1 then
    match rec with
    | .len _ v => (decodeWatchKey v).map fun k => ⟨m.keys ++ [k]⟩
    | _ => .error "Invalid wire type"
  else .ok m

/-- decodeWatch from datapath.proto.ts. -/
def decodeWatch (buf : List Nat) : Except String Watch :=
  runMessageDecoder watchStep defaultWatch buf

theorem snapshotReadStep_skip (m : SnapshotRead) (rec : PbRecord)
    (h1 : pbFieldNumber rec ≠ 1) : snapshotReadStep m rec = .ok m := by
  unfold snapshotReadStep
  rw [if_neg h1]

theorem readRangeStep_skip (m : ReadRange) (rec : PbRecord)
    (h1 : pbFieldNumber rec ≠ 1) (h2 : pbFieldNumber rec ≠ 2)
    (h3 : pbFieldNumber rec ≠ 3) (h4 : pbFieldNumber rec ≠ 4) :
    readRangeStep m rec = .ok m := by
  unfold readRangeStep
  rw [if_neg h1, if_neg h2, if_neg h3, if_neg h4]

theorem atomicWriteStep_skip (m : AtomicWrite) (rec : PbRecord)
    (h1 : pbFieldNumber rec ≠ 1) (h2 : pbFieldNumber rec ≠ 2)
    (h3 : pbFieldNumber rec ≠ 3) : atomicWriteStep m rec = .ok m := by
  unfold atomicWriteStep
  rw [if_neg h1, if_neg h2, if_neg h3]

theorem checkStep_skip (m : Check) (rec : PbRecord)
    (h1 : pbFieldNumber rec ≠ 1) (h2 : pbFieldNumber rec ≠ 2) :
    checkStep m rec = .ok m := by
  unfold checkStep
  rw [if_neg h1, if_neg h2]

theorem mutationStep_skip (m : Mutation) (rec : PbRecord)
    (h1 : pbFieldNumber rec ≠ 1) (h2 : pbFieldNumber rec ≠ 2)
    (h3 : pbFieldNumber rec ≠ 3) (h4 : pbFieldNumber rec ≠ 4)
    (h5 : pbFieldNumber rec ≠ 5) (h6 : pbFieldNumber rec ≠ 6)
    (h7 : pbFieldNumber rec ≠ 7) : mutationStep m rec = .ok m := by
  unfold mutationStep
  rw [if_neg h1, if_neg h2, if_neg h3, if_neg h4, if_neg h5, if_neg h6, if_neg h7]

theorem kvValueStep_skip (m : KvValue) (rec : PbRecord)
    (h1 : pbFieldNumber rec ≠ 1) (h2 : pbFieldNumber rec ≠ 2) :
    kvValueStep m rec = .ok m := by
  unfold kvValueStep
  rw [if_neg h1, if_neg h2]

theorem enqueueStep_skip (m : Enqueue) (rec : PbRecord)
    (h1 : pbFieldNumber rec ≠ 1) (h2 : pbFieldNumber rec ≠ 2)
    (h3 : pbFieldNumber rec ≠ 3) (h4 : pbFieldNumber rec ≠ 4) :
    enqueueStep m rec = .ok m := by
  unfold enqueueStep
  rw [if_neg h1, if_neg h2, if_neg h3, if_neg h4]

theorem watchStep_skip (m : Watch) (rec : PbRecord)
    (h1 : pbFieldNumber rec ≠ 1) : watchStep m rec = .ok m := by
  unfold watchStep
  rw [if_neg h1]

theorem watchKeyStep_skip (m : WatchKey) (rec : PbRecord)
    (h1 : pbFieldNumber rec ≠ 1) : watchKeyStep m rec = .ok m := by
  unfold watchKeyStep
  rw [if_neg h1]

/-- C9: for every datapath message decoder, inserting a record with an
unrecognized field number (of any recognized wire type) at any record
boundary of the input leaves the decoded message unchanged: the reader
consumes the record's payload according to its declared wire type and the
record is otherwise skipped. -/
theorem datapath_unknown_field_skipped
    (rs : List PbRecord) (r0 : PbRecord) (suffix : List Nat)
    (hwf : ∀ r ∈ rs, WfRecord r) (hwf0 : WfRecord r0) :
    (pbFieldNumber r0 ≠ 1 →
      decodeSnapshotRead ((rs.map pbRecordBytes).flatten ++ pbRecordBytes r0 ++ suffix) =
      decodeSnapshotRead ((rs.map pbRecordBytes).flatten ++ suffix)) ∧
    (pbFieldNumber r0 ∉ ([1, 2, 3, 4] : List Nat) →
      decodeReadRange ((rs.map pbRecordBytes).flatten ++ pbRecordBytes r0 ++ suffix) =
      decodeReadRange ((rs.map pbRecordBytes).flatten ++ suffix)) ∧
    (pbFieldNumber r0 ∉ ([1, 2, 3] : List Nat) →
      decodeAtomicWrite ((rs.map pbRecordBytes).flatten ++ pbRecordBytes r0 ++ suffix) =
      decodeAtomicWrite ((rs.map pbRecordBytes).flatten ++ suffix)) ∧
    (pbFieldNumber r0 ∉ ([1, 2] : List Nat) →
      decodeCheck ((rs.map pbRecordBytes).flatten ++ pbRecordBytes r0 ++ suffix) =
      decodeCheck ((rs.map pbRecordBytes).flatten ++ suffix)) ∧
    (pbFieldNumber r0 ∉ ([1, 2, 3, 4, 5, 6, 7] : List Nat) →
      decodeMutation ((rs.map pbRecordBytes).flatten ++ pbRecordBytes r0 ++ suffix) =
      decodeMutation ((rs.map pbRecordBytes).flatten ++ suffix)) ∧
    (pbFieldNumber r0 ∉ ([1, 2] : List Nat) →
      decodeKvValue ((rs.map pbRecordBytes).flatten ++ pbRecordBytes r0 ++ suffix) =
      decodeKvValue ((rs.map pbRecordBytes).flatten ++ suffix)) ∧
    (pbFieldNumber r0 ∉ ([1, 2, 3, 4] : List Nat) →
      decodeEnqueue ((rs.map pbRecordBytes).flatten ++ pbRecordBytes r0 ++ suffix) =
      decodeEnqueue ((rs.map pbRecordBytes).flatten ++ suffix)) ∧
    (pbFieldNumber r0 ≠ 1 →
      decodeWatch ((rs.map pbRecordBytes).flatten ++ pbRecordBytes r0 ++ suffix) =
      decodeWatch ((rs.map pbRecordBytes).flatten ++ suffix)) ∧
    (pbFieldNumber r0 ≠ 1 →
      decodeWatchKey ((rs.map pbRecordBytes).flatten ++ pbRecordBytes r0 ++ suffix) =
      decodeWatchKey ((rs.map pbRecordBytes).flatten ++ suffix)) := by
  refine ⟨?_, ?_, ?_, ?_, ?_, ?_, ?_, ?_, ?_⟩
  · intro h
    exact runMessageDecoder_skip_insert snapshotReadStep r0 hwf0
      (fun m => snapshotReadStep_skip m r0 h) rs hwf defaultSnapshotRead suffix
  · intro h
    simp only [List.mem_cons, List.not_mem_nil, or_false, not_or] at h
    exact runMessageDecoder_skip_insert readRangeStep r0 hwf0
      (fun m => readRangeStep_skip m r0 h.1 h.2.1 h.2.2.1 h.2.2.2) rs hwf defaultReadRange suffix
  · intro h
    simp only [List.mem_cons, List.not_mem_nil, or_false, not_or] at h
    exact runMessageDecoder_skip_insert atomicWriteStep r0 hwf0
      (fun m => atomicWriteStep_skip m r0 h.1 h.2.1 h.2.2) rs hwf defaultAtomicWrite suffix
  · intro h
    simp only [List.mem_cons, List.not_mem_nil, or_false, not_or] at h
    exact runMessageDecoder_skip_insert checkStep r0 hwf0
      (fun m => checkStep_skip m r0 h.1 h.2) rs hwf defaultCheck suffix
  · intro h
    simp only [List.mem_cons, List.not_mem_nil, or_false, not_or] at h
    exact runMessageDecoder_skip_insert mutationStep r0 hwf0
      (fun m => mutationStep_skip m r0 h.1 h.2.1 h.2.2.1 h.2.2.2.1 h.2.2.2.2.1
        h.2.2.2.2.2.1 h.2.2.2.2.2.2) rs hwf defaultMutation suffix
  · intro h
    simp only [List.mem_cons, List.not_mem_nil, or_false, not_or] at h
    exact runMessageDecoder_skip_insert kvValueStep r0 hwf0
      (fun m => kvValueStep_skip m r0 h.1 h.2) rs hwf defaultKvValue suffix
  · intro h
    simp only [List.mem_cons, List.not_mem_nil, or_false, not_or] at h
    exact runMessageDecoder_skip_insert enqueueStep r0 hwf0
      (fun m => enqueueStep_skip m r0 h.1 h.2.1 h.2.2.1 h.2.2.2) rs hwf defaultEnqueue suffix
  · intro h
    exact runMessageDecoder_skip_insert watchStep r0 hwf0
      (fun m => watchStep_skip m r0 h) rs hwf defaultWatch suffix
  · intro h
    exact runMessageDecoder_skip_insert watchKeyStep r0 hwf0
      (fun m => watchKeyStep_skip m r0 h) rs hwf defaultWatchKey suffix

theorem datapath_unknown_field_skipped_witness :
    (∀ r ∈ ([] : List PbRecord), WfRecord r) ∧ WfRecord (PbRecord.varint 99 5) ∧
    pbFieldNumber (PbRecord.varint 99 5) ∉ ([1, 2, 3, 4, 5, 6, 7] : List Nat) ∧
    decodeMutation [152, 6, 5] = decodeMutation [] := by
  refine ⟨by simp, ⟨by norm_num, by norm_num⟩, by decide, ?_⟩
  have h := (datapath_unknown_field_skipped [] (PbRecord.varint 99 5) []
    (by simp) ⟨by norm_num, by norm_num⟩).2.2.2.2.1 (by decide)
  simpa [pbRecordBytes, pbTag, writePbVarint, writeVarint] using h

/-- C10: when reading a LEN record whose declared payload length, truncated
to a signed 32-bit integer, is negative, readPbRecord throws the RangeError
of readPbLenPrefix without attempting to read any payload bytes (whatever
follows the length varint); symmetrically, writePbRecord throws a
RangeError for any LEN payload longer than 0x7fffffff bytes. -/
theorem lenPayload_length_bounds
    (f : Nat) (hf : f < 2 ^ 29) (rawLen : Nat) (hraw : rawLen < 2 ^ 64)
    (hneg : decodePbInt32 rawLen < 0) (tail : List Nat)
    (v : List Nat) (hv : 0x7fffffff < v.length) :
    readPbRecord (writePbVarint (pbTag f 2) ++ (writePbVarint rawLen ++ tail)) =
      .error "Length prefixed payload is too long" ∧
    writePbRecord (.len f v) = .error "Length prefixed payload too long" := by
  constructor
  · have htag := pbTag_eq 2 hf
    have htlt : pbTag f 2 < 2 ^ 64 := by omega
    have h32 : decodePbUint32 (pbTag f 2) = 8 * f + 2 := by
      simp only [decodePbUint32]
      rw [Nat.mod_eq_of_lt (by omega), htag]
    have hmod : (8 * f + 2) % 8 = 2 := by omega
    have hdiv : (8 * f + 2) / 8 = f := by omega
    have hp : readPbLenPayload (writePbVarint rawLen ++ tail) =
        .error "Length prefixed payload is too long" := by
      unfold readPbLenPayload
      rw [readPbVarint_writePbVarint hraw]
      simp only []
      rw [if_pos hneg]
    unfold readPbRecord
    rw [readPbVarint_writePbVarint htlt]
    simp only [h32, hmod, hdiv]
    rw [if_neg (by decide), if_neg (by decide), if_pos trivial, hp]
  · unfold writePbRecord
    simp only []
    rw [if_pos hv]

theorem lenPayload_length_bounds_witness :
    (1 : Nat) < 2 ^ 29 ∧ (2 ^ 31 : Nat) < 2 ^ 64 ∧ decodePbInt32 (2 ^ 31) < 0 ∧
    0x7fffffff < (List.replicate 0x80000000 (0 : Nat)).length ∧
    readPbRecord [10, 128, 128, 128, 128, 8] = .error "Length prefixed payload is too long" ∧
    writePbRecord (.len 1 (List.replicate 0x80000000 0)) =
      .error "Length prefixed payload too long" := by
  have h := lenPayload_length_bounds 1 (by norm_num) (2 ^ 31) (by norm_num) (by decide) []
    (List.replicate 0x80000000 0) (by rw [List.length_replicate]; norm_num)
  refine ⟨by norm_num, by norm_num, by decide, by rw [List.length_replicate]; norm_num, ?_, h.2⟩
  have h1 := h.1
  simpa [pbTag, writePbVarint, writeVarint] using h1

/-! ### hex.ts and mod.ts: the relay operations -/

/-- The character class \s of JavaScript regular expressions; decodeHex
strips these characters from the input before validating it.  Character
strings are modelled as lists of Unicode code points. -/
def isJsSpace (c : Nat) : Bool :=
  c = 9 || c = 10 || c = 11 || c = 12 || c = 13 || c = 32 || c = 160 || c = 0x1680 ||
  (0x2000 ≤ c && c ≤ 0x200a) || c = 0x2028 || c = 0x2029 || c = 0x202f ||
  c = 0x205f || c = 0x3000 || c = 0xfeff

/-- The value of one hex digit character (0-9, A-F, a-f from the regular
expression of decodeHex), none for any other character. -/
def hexDigitVal (c : Nat) : Option Nat :=
  if 48 ≤ c ∧ c ≤ 57 then some (c - 48)
  else if 65 ≤ c ∧ c ≤ 70 then some (c - 55)
  else if 97 ≤ c ∧ c ≤ 102 then some (c - 87)
  else none

/-- Hex digit pairs to bytes: none exactly when the regular expression
`(?:[0-9A-Fa-f]\x7b2\x7d)*` of decodeHex rejects the string (odd length or a
non-digit), otherwise the bytes parseInt produces from each pair. -/
def hexPairs : List Nat → Option (List Nat)
  | [] => some []
  | [_] => none
  | c1 :: c2 :: rest =>
    match hexDigitVal c1, hexDigitVal c2, hexPairs rest with
    | some d1, some d2, some bs => some ((d1 * 16 + d2) :: bs)
    | _, _, _ => none

/-- decodeHex from hex.ts: strip JavaScript whitespace, reject anything but
an even number of hex digits with a TypeError, then parse byte pairs. -/
def decodeHex (s : List Nat) : Except String (List Nat) :=
  match hexPairs (s.filter fun c => !(isJsSpace c)) with
  | some bytes => .ok bytes
  | none => .error "Invalid hex string"

/-- One character of the lowercase hex alphabet of hex.ts ("0123456789abcdef"). -/
def hexChar (v : Nat) : Nat := if v < 10 then 48 + v else 87 + v

/-- encodeHex from hex.ts: every byte b of a Uint8Array (so b < 256)
becomes the two characters alphabet[b >> 4] and alphabet[b & 15]. -/
def encodeHex (b : List Nat) : List Nat :=
  b.flatMap fun x => [hexChar (x / 16), hexChar (x % 16)]

/-- Deno.KvListSelector as built by snapshotRead: either a start/end pair
or a start/prefix pair of decoded keys. -/
inductive KvListSelector where
  | startEnd (start endKey : List KvKeyPart)
  | startPfx (start pfx : List KvKeyPart)
deriving DecidableEq

/-- The option object snapshotRead passes to kv.list: limit and reverse
are attached only when the corresponding request field is truthy. -/
structure KvListOptions where
  limit : Option Int
  reverse : Bool
deriving DecidableEq

/-- The kv.list options built for one range by snapshotRead (mod.ts):
`if (range.limit) options.limit = range.limit` and likewise for reverse
(a reverse option left absent equals the engine default false). -/
def rangeListOptions (range : ReadRange) : KvListOptions :=
  ⟨if range.limit ≠ 0 then some range.limit else none, range.reverse⟩

/-- The per-range selector construction of snapshotRead (mod.ts): decode
both endpoints with the range extension (a decode failure is a thrown
TypeError), throw "Unsupported selector" when start.mode is before (-1),
promote mode-after (1) endpoints by appending an empty byte-string part,
then build a start/end selector when end.mode = 0 and a start/prefix
selector otherwise. -/
def buildSelector (range : ReadRange) : Except String KvListSelector :=
  match decodeRangeKey range.start with
  | none => .error "TypeError"
  | some start =>
    match decodeRangeKey range.«end» with
    | none => .error "TypeError"
    | some endk =>
      if start.mode = -1 then .error "Unsupported selector"
      else
        let start2 := if start.mode = 1 then RangeKey.mk (start.key ++ [KvKeyPart.bytes []]) 0
          else start
        let endk2 := if endk.mode = 1 then RangeKey.mk (endk.key ++ [KvKeyPart.bytes []]) 0
          else endk
        if endk2.mode = 0 then .ok (KvListSelector.startEnd start2.key endk2.key)
        else .ok (KvListSelector.startPfx start2.key endk2.key)

/-- A sequential per-element loop that stops at the first thrown error
(the shape of the for-loops of snapshotRead and atomicWrite; for
snapshotRead, Promise.all rejects with the first range that threw). -/
def mapME {α β : Type} (f : α → Except String β) : List α → Except String (List β)
  | [] => .ok []
  | x :: l =>
    match f x with
    | .error e => .error e
    | .ok b =>
      match mapME f l with
      | .error e => .error e
      | .ok bs => .ok (b :: bs)

/-- snapshotRead from mod.ts up to its engine calls: kv.list is abstracted
as a function from selector and options to a list of entries of an
arbitrary type (entry serialization is out of scope); each request range
yields one output range, and any thrown error fails the whole request, so
no response is produced. -/
def snapshotReadRanges {α : Type} (list : KvListSelector → KvListOptions → List α)
    (req : SnapshotRead) : Except String (List (List α)) :=
  mapME (fun range => (buildSelector range).map fun sel => list sel (rangeListOptions range))
    req.ranges

/-- Deno.AtomicCheck as built by atomicWrite: a decoded key and a
versionstamp that is a hex string (character codes) or null. -/
structure AtomicCheck where
  key : List KvKeyPart
  versionstamp : Option (List Nat)
deriving DecidableEq

/-- The per-check processing of atomicWrite (mod.ts): decode the key (a
failure is a thrown TypeError), and map the versionstamp bytes with
`check.versionstamp.some(Boolean) ? encodeHex(check.versionstamp) : null`
(a byte is truthy exactly when it is nonzero). -/
def buildCheck (check : Check) : Except String AtomicCheck :=
  match decodeKey check.key with
  | none => .error "TypeError"
  | some key =>
    .ok ⟨key, if check.versionstamp.any (fun b => b != 0) then some (encodeHex check.versionstamp)
      else none⟩

/-- The check loop of atomicWrite: op.check is called once per request
check, in request order. -/
def buildChecks (checks : List Check) : Except String (List AtomicCheck) :=
  mapME buildCheck checks

/-- The expiry option attached by the M_SET branch of atomicWrite
(mod.ts): `if (mutation.expire_at_ms) \x7b options.expireIn = Number(mutation.expire_at_ms) - now \x7d`.
A JavaScript bigint is truthy exactly when it is nonzero; the Number
conversion and the float subtraction are modelled as exact, which holds
whenever the operands are below 2^53 in magnitude.  now is
Date.now(), captured once per request before the mutation loop. -/
def setExpireOption (mutation : Mutation) (now : Int) : Option Int :=
  if mutation.expire_at_ms ≠ 0 then some (mutation.expire_at_ms - now) else none

/-- The outcome of op.commit() as observed by atomicWrite: a successful
commit carries the engine's versionstamp string, a failed commit has
result.ok false, and a commit that threw is caught. -/
inductive CommitResult where
  | ok (versionstamp : List Nat)
  | notOk
  | threw
deriving DecidableEq

/-- AtomicWriteOutput as assembled by atomicWrite (datapath.proto.ts
statuses: AW_UNSPECIFIED = 0, AW_SUCCESS = 1, AW_CHECK_FAILURE = 2). -/
structure AtomicWriteOutput where
  status : Nat
  versionstamp : List Nat
  failed_checks : List Nat
deriving DecidableEq

/-- The response construction of atomicWrite (mod.ts): res starts as
status AW_SUCCESS with empty versionstamp and no failed checks; a
successful commit stores the hex-decoded versionstamp; result.ok false
sets AW_CHECK_FAILURE; any throw inside the try — from commit itself or
from decodeHex on a malformed versionstamp — is caught and sets
AW_UNSPECIFIED, leaving the versionstamp empty. -/
def atomicWriteResponse (result : CommitResult) : AtomicWriteOutput :=
  match result with
  | .ok vs =>
    match decodeHex vs with
    | .ok bytes => ⟨1, bytes, []⟩
    | .error _ => ⟨0, [], []⟩
  | .notOk => ⟨2, [], []⟩
  | .threw => ⟨0, [], []⟩

theorem mapME_error {α β : Type} (f : α → Except String β) (l : List α)
    (x : α) (hx : x ∈ l) (hf : ∀ b, f x ≠ .ok b) :
    ∃ e, mapME f l = .error e := by
  induction l with
  | nil => cases hx
  | cons y l ih =>
    unfold mapME
    cases hfy : f y with
    | error e => exact ⟨e, rfl⟩
    | ok b =>
      rcases List.mem_cons.mp hx with h | h
      · subst h
        exact absurd hfy (hf b)
      · obtain ⟨e, he⟩ := ih h
        rw [he]
        exact ⟨e, rfl⟩

theorem mapME_ok_get {α β : Type} (f : α → Except String β) :
    ∀ (l : List α) (bs : List β), mapME f l = .ok bs →
      bs.length = l.length ∧
      ∀ i (hi : i < l.length) (hi2 : i < bs.length),
        f (l.get ⟨i, hi⟩) = .ok (bs.get ⟨i, hi2⟩) := by
  intro l
  induction l with
  | nil =>
    intro bs h
    unfold mapME at h
    simp only [Except.ok.injEq] at h
    subst h
    exact ⟨rfl, fun i hi _ => absurd hi (by simp)⟩
  | cons y l ih =>
    intro bs h
    unfold mapME at h
    cases hfy : f y with
    | error e => rw [hfy] at h; cases h
    | ok b =>
      rw [hfy] at h
      cases hml : mapME f l with
      | error e => rw [hml] at h; cases h
      | ok bs2 =>
        rw [hml] at h
        simp only [Except.ok.injEq] at h
        subst h
        obtain ⟨hlen, hget⟩ := ih bs2 hml
        refine ⟨by simp [hlen], ?_⟩
        intro i hi hi2
        cases i with
        | zero => simpa using hfy
        | succ n =>
          simpa using hget n (by simpa using hi) (by simpa using hi2)

/-- C5: snapshotRead fails the whole request whenever some range's start
endpoint decodes with mode before (-1): that range's selector construction
throws the TypeError "Unsupported selector" (whatever its end endpoint
decodes to), and the request-level processing yields an error rather than
a list of output ranges, so no response message is produced. -/
theorem snapshotRead_rejects_before_selector {α : Type}
    (list : KvListSelector → KvListOptions → List α) (req : SnapshotRead)
    (range : ReadRange) (hmem : range ∈ req.ranges)
    (rk : RangeKey) (hstart : decodeRangeKey range.start = some rk)
    (hmode : rk.mode = -1) :
    (∀ ek, decodeRangeKey range.«end» = some ek →
      buildSelector range = .error "Unsupported selector") ∧
    ∃ e, snapshotReadRanges list req = .error e := by
  have hone : ∀ ek, decodeRangeKey range.«end» = some ek →
      buildSelector range = .error "Unsupported selector" := by
    intro ek hek
    unfold buildSelector
    rw [hstart, hek]
    simp only []
    rw [if_pos hmode]
  refine ⟨hone, ?_⟩
  apply mapME_error _ _ range hmem
  intro b hb
  cases hbs : buildSelector range with
  | error e => rw [hbs] at hb; simp [Except.map] at hb
  | ok sel =>
    cases hek : decodeRangeKey range.«end» with
    | none =>
      unfold buildSelector at hbs
      rw [hstart, hek] at hbs
      simp at hbs
    | some ek => rw [hone ek hek] at hbs; cases hbs

theorem snapshotRead_rejects_before_selector_witness :
    (⟨[255], [], 0, false⟩ : ReadRange) ∈ (SnapshotRead.mk [⟨[255], [], 0, false⟩]).ranges ∧
    decodeRangeKey [255] = some ⟨[], -1⟩ ∧
    buildSelector ⟨[255], [], 0, false⟩ = .error "Unsupported selector" ∧
    ∃ e, snapshotReadRanges (fun _ _ => ([] : List Unit))
      (SnapshotRead.mk [⟨[255], [], 0, false⟩]) = .error e := by
  have hdec : decodeRangeKey [255] = some ⟨[], -1⟩ := by
    unfold decodeRangeKey decodeKeyImpl
    rw [decodeKeyLoop_before_marker]
    rfl
  have h := snapshotRead_rejects_before_selector (fun _ _ => ([] : List Unit))
    (SnapshotRead.mk [⟨[255], [], 0, false⟩]) ⟨[255], [], 0, false⟩ (by simp)
    ⟨[], -1⟩ hdec rfl
  refine ⟨by simp, hdec, ?_, h.2⟩
  exact h.1 ⟨[], 0⟩ (by unfold decodeRangeKey decodeKeyImpl; rw [decodeKeyLoop_nil]; rfl)

/-- C6 counterexample: a check whose versionstamp is ten zero bytes — not
the empty byte string — is still mapped to a null versionstamp (expect no
entry), refuting "null exactly when the versionstamp field is the empty
byte string". -/
theorem checkVersionstamp_all_zero_counterexample :
    (Check.mk [] (List.replicate 10 0)).versionstamp ≠ [] ∧
    buildCheck (Check.mk [] (List.replicate 10 0)) = .ok ⟨[], none⟩ := by
  have hdec : decodeKey ([] : List Nat) = some [] := by
    unfold decodeKey decodeKeyImpl
    rw [decodeKeyLoop_nil]
    rfl
  constructor
  · simp
  · unfold buildCheck
    rw [hdec]
    simp only []
    rw [if_neg (by decide)]

/-- C6 (amended): in atomicWrite, each Check's versionstamp is mapped to
null (expect no entry) exactly when every byte of the versionstamp field is
zero — in particular when it is empty — and otherwise to the hex encoding
of its bytes; the checks are attached to the engine transaction in request
order (the i-th attached check is built from the i-th request check). -/
theorem checkVersionstamp_mapping (cs : List Check) (l : List AtomicCheck)
    (h : buildChecks cs = .ok l) :
    l.length = cs.length ∧
    ∀ i (hi : i < cs.length) (hi2 : i < l.length),
      decodeKey (cs.get ⟨i, hi⟩).key = some (l.get ⟨i, hi2⟩).key ∧
      ((l.get ⟨i, hi2⟩).versionstamp = none ↔ ∀ b ∈ (cs.get ⟨i, hi⟩).versionstamp, b = 0) ∧
      (¬(∀ b ∈ (cs.get ⟨i, hi⟩).versionstamp, b = 0) →
        (l.get ⟨i, hi2⟩).versionstamp = some (encodeHex (cs.get ⟨i, hi⟩).versionstamp)) := by
  obtain ⟨hlen, hget⟩ := mapME_ok_get buildCheck cs l h
  refine ⟨hlen, ?_⟩
  intro i hi hi2
  have hf := hget i hi hi2
  unfold buildCheck at hf
  cases hdec : decodeKey (cs.get ⟨i, hi⟩).key with
  | none => rw [hdec] at hf; cases hf
  | some key =>
    rw [hdec] at hf
    simp only [Except.ok.injEq] at hf
    have hkey : (l.get ⟨i, hi2⟩).key = key := by rw [← hf]
    have hvs : (l.get ⟨i, hi2⟩).versionstamp =
        if (cs.get ⟨i, hi⟩).versionstamp.any (fun b => b != 0) then
          some (encodeHex (cs.get ⟨i, hi⟩).versionstamp) else none := by
      rw [← hf]
    have hiff : ((cs.get ⟨i, hi⟩).versionstamp.any (fun b => b != 0) = false) ↔
        ∀ b ∈ (cs.get ⟨i, hi⟩).versionstamp, b = 0 := by
      rw [List.any_eq_false]
      constructor
      · intro hall b hb
        have := hall b hb
        simpa using this
      · intro hall b hb
        simpa using hall b hb
    refine ⟨by rw [hkey], ?_, ?_⟩
    · rw [hvs]
      by_cases hany : (cs.get ⟨i, hi⟩).versionstamp.any (fun b => b != 0)
      · rw [if_pos hany]
        refine iff_of_false (by simp) ?_
        intro hall
        have h2 := hiff.mpr hall
        rw [hany] at h2
        exact Bool.noConfusion h2
      · rw [if_neg hany]
        exact iff_of_true rfl (hiff.mp (by simpa using hany))
    · intro hnz
      have hany : (cs.get ⟨i, hi⟩).versionstamp.any (fun b => b != 0) = true := by
        by_contra hany
        exact hnz (hiff.mp (by simpa using hany))
      rw [hvs, if_pos hany]

theorem checkVersionstamp_mapping_witness :
    buildChecks [Check.mk [] [1]] = .ok [AtomicCheck.mk [] (some [48, 49])] ∧
    ([AtomicCheck.mk [] (some [48, 49])] : List AtomicCheck).length =
      ([Check.mk [] [1]] : List Check).length := by
  have hdec : decodeKey ([] : List Nat) = some [] := by
    unfold decodeKey decodeKeyImpl
    rw [decodeKeyLoop_nil]
    rfl
  have hstep : buildCheck (Check.mk [] [1]) = .ok ⟨[], some [48, 49]⟩ := by
    unfold buildCheck
    rw [hdec]
    simp only []
    rw [if_pos (by decide)]
    rfl
  have hb : buildChecks [Check.mk [] [1]] = .ok [⟨[], some [48, 49]⟩] := by
    unfold buildChecks mapME
    rw [hstep]
    rfl
  exact ⟨hb, (checkVersionstamp_mapping [Check.mk [] [1]] [⟨[], some [48, 49]⟩] hb).1⟩

/-- C7 counterexample: for a SET mutation with expire_at_ms = -1 (not
> 0), the relay still attaches an expiry option, expireIn = -1 − now,
because the source tests JavaScript truthiness (expire_at_ms ≠ 0), not
expire_at_ms > 0. -/
theorem setExpiry_negative_counterexample :
    ¬((-1 : Int) > 0) ∧
    (Mutation.mk [] none 1 (-1) [] [] false).expire_at_ms = -1 ∧
    setExpireOption (Mutation.mk [] none 1 (-1) [] [] false) 1000 = some (-1001) := by
  refine ⟨by norm_num, rfl, ?_⟩
  unfold setExpireOption
  norm_num

/-- C7 (amended): in atomicWrite, for a SET mutation the relay attaches
expireIn = expire_at_ms − now (now being the wall-clock milliseconds
captured once per request) if and only if expire_at_ms ≠ 0 — JavaScript
truthiness of the bigint field, not expire_at_ms > 0 — and a negative
difference is passed to the engine unchanged.  Stated for operands in the
float-exact range, where the source's Number conversion is lossless. -/
theorem setExpiry_truthiness (mutation : Mutation) (now : Int)
    (hm : mutation.expire_at_ms.natAbs ≤ 2 ^ 53) (hn : now.natAbs ≤ 2 ^ 53) :
    (setExpireOption mutation now = none ↔ mutation.expire_at_ms = 0) ∧
    (mutation.expire_at_ms ≠ 0 →
      setExpireOption mutation now = some (mutation.expire_at_ms - now)) := by
  unfold setExpireOption
  constructor
  · by_cases h : mutation.expire_at_ms = 0 <;> simp [h]
  · intro h
    rw [if_pos h]

theorem setExpiry_truthiness_witness :
    (Mutation.mk [] none 1 5 [] [] false).expire_at_ms.natAbs ≤ 2 ^ 53 ∧
    (3 : Int).natAbs ≤ 2 ^ 53 ∧ (Mutation.mk [] none 1 5 [] [] false).expire_at_ms ≠ 0 ∧
    setExpireOption (Mutation.mk [] none 1 5 [] [] false) 3 = some 2 := by
  refine ⟨by norm_num, by norm_num, by norm_num, ?_⟩
  have h := (setExpiry_truthiness (Mutation.mk [] none 1 5 [] [] false) 3
    (by norm_num) (by norm_num)).2 (by norm_num)
  simpa using h

/-- C8: atomicWrite maps the engine commit outcome to the response as
follows: a successful commit (with a well-formed hex versionstamp, as the
engine produces) yields status AW_SUCCESS (1) with the hex-decoded commit
versionstamp; a check failure yields AW_CHECK_FAILURE (2) with empty
versionstamp and empty failed_checks; any other commit error yields
AW_UNSPECIFIED (0). -/
theorem commitOutcome_mapping :
    (∀ vs bytes, decodeHex vs = .ok bytes →
      atomicWriteResponse (.ok vs) = ⟨1, bytes, []⟩) ∧
    atomicWriteResponse .notOk = ⟨2, [], []⟩ ∧
    atomicWriteResponse .threw = ⟨0, [], []⟩ := by
  refine ⟨?_, rfl, rfl⟩
  intro vs bytes h
  unfold atomicWriteResponse
  simp only []
  rw [h]

theorem commitOutcome_mapping_witness :
    decodeHex [48, 48] = .ok [0] ∧
    atomicWriteResponse (.ok [48, 48]) = ⟨1, [0], []⟩ := by
  have hd : decodeHex [48, 48] = .ok [0] := by rfl
  exact ⟨hd, commitOutcome_mapping.1 [48, 48] [0] hd⟩

end KvRelay
